import Mathlib

/-
  Verification of the minsql storage core against its specification.

  Shallow embedding of src/storage: the WAL (wal.c), the page manager and
  slotted-page operations (page_manager.c), the buffer pool (buffer_pool.c),
  the in-memory B-tree index (btree.cpp) and the bloom filter (bloom.cpp).
  Machine integers are modelled as Nat with explicit `% 2^w` at the points
  where the C code performs fixed-width arithmetic.  File bytes are Nat
  (values < 256 where produced by serialization).
-/

set_option maxRecDepth 4000

namespace MinSQL

/-- StorageResult from minsql_storage.h. -/
inductive StorageResult where
  | ok
  | error
  | oom
  | ioError
  | corruption
deriving Repr, DecidableEq

/-! ## Byte-level helpers -/

/-- Little-endian encoding of `v` into `w` bytes (the in-memory layout of a
`w`-byte unsigned integer field on a little-endian machine). -/
def leBytes : Nat → Nat → List Nat
  | 0, _ => []
  | w + 1, v => (v % 256) :: leBytes w (v / 256)

/-- Little-endian read of `w` bytes starting at `off` (missing bytes read as 0). -/
def readLE (bytes : List Nat) (off : Nat) : Nat → Nat
  | 0 => 0
  | w + 1 => bytes.getD off 0 + 256 * readLE bytes (off + 1) w

/-! ## WAL (src/storage/wal/wal.c)

The on-disk record is struct WALEntry from minsql_storage.h:
`{lsn:u64, transaction_id:u32, logical_time:u64, type:u16, length:u16, data[]}`.
Under the standard LP64/LLP64 ABIs the struct carries 4 bytes of padding
after `transaction_id` (so `logical_time` sits at offset 16, not 12) and
4 bytes of trailing padding, hence `sizeof(WALEntry) = 32` and the payload
`data` sits at offset 28.  `storage_wal_append` advances the buffer by
`sizeof(WALEntry) + entry->length`, so each record's log footprint is
`32 + length` bytes. -/

def WALENTRY_SIZE : Nat := 32
def WAL_BUFFER_SIZE : Nat := 65536

structure WALEntry where
  lsn : Nat
  transaction_id : Nat
  logical_time : Nat
  typ : Nat
  length : Nat
  data : List Nat
deriving Repr, DecidableEq

/-- entry_size = sizeof(WALEntry) + entry->length (wal.c line 85). -/
def entrySize (e : WALEntry) : Nat := WALENTRY_SIZE + e.length

/-- The bytes a record occupies in the WAL buffer / log file.  Fields occupy
the first 28 bytes (with the 4 ABI padding bytes at offset 12 written as 0);
the payload sits at offset 28; the 4 slack bytes completing the
`32 + length` footprint are modelled as 0. -/
def serializeEntry (e : WALEntry) : List Nat :=
  (leBytes 8 e.lsn ++ leBytes 4 e.transaction_id ++ [0, 0, 0, 0] ++
    leBytes 8 e.logical_time) ++ leBytes 2 e.typ ++ leBytes 2 e.length ++
    (e.data ++ [0, 0, 0, 0])

/-- The record actually stored for an append: its header's lsn field is
overwritten with the assigned LSN (wal.c line 97) and exactly
`entry->length` payload bytes are copied (line 98); if the caller's `data`
is shorter than `length` the C code would read past it, which we model as
zero bytes. -/
def normEntry (lsn : Nat) (e : WALEntry) : WALEntry :=
  { lsn := lsn
    transaction_id := e.transaction_id
    logical_time := e.logical_time
    typ := e.typ
    length := e.length
    data := e.data.take e.length ++ List.replicate (e.length - e.data.length) 0 }

/-- In-memory WAL state: the durable log file contents (as the list of
records flushed so far, in order) and the in-memory buffer. -/
structure WALState where
  file : List WALEntry
  buffer : List WALEntry
  buffer_pos : Nat
  next_lsn : Nat
deriving Repr, DecidableEq

/-- wal_create on an empty data directory: empty log, next_lsn = 0. -/
def walInit : WALState :=
  { file := [], buffer := [], buffer_pos := 0, next_lsn := 0 }

/-- wal_flush_internal: writes the buffer to the file and resets it. -/
def wal_flush_internal (s : WALState) : WALState :=
  { s with file := s.file ++ s.buffer, buffer := [], buffer_pos := 0 }

/-- The state of the WAL buffer after the conditional flush performed at
the top of storage_wal_append (wal.c lines 87-93), immediately before the
record is copied into the buffer. -/
def appendPreCopyState (s : WALState) (e : WALEntry) : WALState :=
  if s.buffer_pos + entrySize e > WAL_BUFFER_SIZE then wal_flush_internal s else s

/-- storage_wal_append (wal.c lines 78-105), successful path: conditionally
flush, copy the record with its lsn set, advance buffer_pos and next_lsn
by entry_size; returns the assigned lsn. -/
def storage_wal_append (s : WALState) (e : WALEntry) : WALState × Nat :=
  let lsn := s.next_lsn
  let s1 := appendPreCopyState s e
  ({ s1 with
      buffer := s1.buffer ++ [normEntry lsn e]
      buffer_pos := s1.buffer_pos + entrySize e
      next_lsn := s1.next_lsn + entrySize e }, lsn)

/-- The byte contents of wal.log: the concatenation of the flushed records. -/
def walFileBytes (s : WALState) : List Nat :=
  (s.file.map serializeEntry).flatten

/-- A WAL operation performed by the single client thread (only successful
operations are modelled: a failed append/flush returns an error without
changing any state, so eliding it from a run loses nothing). -/
inductive WALOp where
  | append (e : WALEntry)
  | flush
deriving Repr

def walStep (s : WALState) : WALOp → WALState × Option Nat
  | .append e => let (s', lsn) := storage_wal_append s e; (s', some lsn)
  | .flush => (wal_flush_internal s, none)

/-- Run a sequence of WAL operations, collecting the LSNs returned by the
appends, in call order. -/
def runWAL (s : WALState) : List WALOp → WALState × List Nat
  | [] => (s, [])
  | op :: ops =>
      let (s1, out) := walStep s op
      let (s2, outs) := runWAL s1 ops
      (s2, out.toList ++ outs)

/-! ### WAL replay (storage_wal_replay, wal.c lines 117-163)

Replay reads the whole log into memory and walks it by
`entry_size = sizeof(WALEntry) + entry->length`, stopping silently when the
current record would extend past end of file.  The switch on `entry->type`
has a case for each of the six known types and no default, every case is
empty, and the loop continues regardless of the type, so unknown types are
skipped exactly like known ones.  The fuel argument bounds the iteration
count; each iteration advances the offset by at least 32 bytes, so
`bytes.length + 1` fuel can never be exhausted. -/

structure ReplayRec where
  offset : Nat
  typ : Nat
  length : Nat
deriving Repr, DecidableEq

def replayGo (bytes : List Nat) : Nat → Nat → List ReplayRec
  | 0, _ => []
  | fuel + 1, offset =>
      if offset < bytes.length then
        let len := readLE bytes (offset + 26) 2
        let esize := WALENTRY_SIZE + len
        if offset + esize > bytes.length then []
        else
          { offset := offset, typ := readLE bytes (offset + 24) 2, length := len } ::
            replayGo bytes fuel (offset + esize)
      else []

/-- storage_wal_replay on the log's byte contents: the records visited in
order, and the returned StorageResult (always ok on the modelled path:
the error returns in the C function concern malloc and short reads, not
the record walk). -/
def storage_wal_replay (bytes : List Nat) : List ReplayRec × StorageResult :=
  (replayGo bytes (bytes.length + 1) 0, StorageResult.ok)

/-! ### Scenario B entries (spec section 8): an Insert record with a 2-byte
payload followed by a Commit record with an empty payload. -/

def walEntryA : WALEntry :=
  { lsn := 0, transaction_id := 1, logical_time := 0, typ := 1, length := 2, data := [170, 187] }

def walEntryB : WALEntry :=
  { lsn := 0, transaction_id := 1, logical_time := 1, typ := 4, length := 0, data := [] }

def walDemoOps : List WALOp := [.append walEntryA, .append walEntryB, .flush]

/-- An entry whose 65535-byte payload cannot fit the 64 KiB WAL buffer even
after a flush (entry_size = 32 + 65535 = 65567 > 65536). -/
def walOversize : WALEntry :=
  { lsn := 0, transaction_id := 0, logical_time := 0, typ := 1, length := 65535
    data := List.replicate 65535 0 }

/-- A record with an unknown type (99 is none of the six WALEntryType
values) followed by a known Insert record, both already in lsn/offset form. -/
def walEntryUnknown : WALEntry :=
  { lsn := 0, transaction_id := 0, logical_time := 0, typ := 99, length := 0, data := [] }

def walEntryKnown : WALEntry :=
  { lsn := 0, transaction_id := 7, logical_time := 2, typ := 1, length := 0, data := [] }

def walUnknownTypeLog : List Nat :=
  serializeEntry (normEntry 0 walEntryUnknown) ++ serializeEntry (normEntry 32 walEntryKnown)

/-- Byte offsets in wal.log are sums of serialized record lengths; this
accumulates them next to each record's stored lsn field. -/
def fileOffsetsOk : Nat → List WALEntry → Bool
  | _, [] => true
  | acc, r :: rs => (r.lsn == acc) && fileOffsetsOk (acc + (serializeEntry r).length) rs

/-- Sum of the log footprints of a list of records. -/
def recsSize (l : List WALEntry) : Nat :=
  (l.map (fun r => (serializeEntry r).length)).sum

/-- The replay summary of a list of well-formed records laid out
contiguously starting at a given byte offset. -/
def replaySummaries : Nat → List WALEntry → List ReplayRec
  | _, [] => []
  | off, r :: rs =>
      { offset := off, typ := r.typ, length := r.length } ::
        replaySummaries (off + WALENTRY_SIZE + r.length) rs

/-! ## Pages (src/storage/pages/page_manager.c, minsql_storage.h)

struct Page is `{PageHeader header; bool dirty; uint16_t pin_count;
uint8_t data[8165]}`.  Struct byte layout (x86-64 and the other common
ABIs): header at bytes 0-23 (page_id u32 @0, checksum u32 @4, lower u16
@8, upper u16 @10, special u16 @12, flags u16 @14, lsn u64 @16), `dirty`
at byte 24, one padding byte at 25, `pin_count` at bytes 26-27, `data` at
bytes 28-8192, trailing padding to sizeof(Page) = 8200.

Two views are used below.  `MemPage` is the field view, exact for pages
produced by page_manager_alloc / page_manager_read and manipulated only
through the header fields and dirty/pin_count.  The slotted-page tuple
operations are modelled on the raw struct bytes instead, because the code
addresses line pointers relative to the struct base (`(uint8_t*)page +
header.lower` with lower starting at 24), which aliases the
dirty/padding/pin_count bytes at 24-27. -/

def PAGE_SIZE : Nat := 8192
def PAGE_HEADER_SIZE : Nat := 24
def MEMPAGE_DATA_SIZE : Nat := 8165
def SIZEOF_PAGE : Nat := 8200

structure MemPage where
  page_id : Nat
  checksum : Nat
  lower : Nat
  upper : Nat
  special : Nat
  flags : Nat
  lsn : Nat
  dirty : Bool
  pin_count : Nat
  data : List Nat
deriving Repr, DecidableEq

/-- The raw struct bytes of a MemPage (padding bytes modelled as 0). -/
def pageStructBytes (p : MemPage) : List Nat :=
  leBytes 4 p.page_id ++ leBytes 4 p.checksum ++ leBytes 2 p.lower ++
    leBytes 2 p.upper ++ leBytes 2 p.special ++ leBytes 2 p.flags ++
    leBytes 8 p.lsn ++ [if p.dirty then 1 else 0] ++ [0] ++
    leBytes 2 p.pin_count ++ p.data ++ [0, 0, 0, 0, 0, 0, 0]

/-- The on-disk page layout demanded by the spec (section 6): exactly the
24-byte header followed by P-24 payload bytes, with the transient
dirty/pin_count fields absent.  This definition follows the spec's words,
for comparison against what the code persists. -/
def specOnDiskPage (p : MemPage) : List Nat :=
  leBytes 4 p.page_id ++ leBytes 4 p.checksum ++ leBytes 2 p.lower ++
    leBytes 2 p.upper ++ leBytes 2 p.special ++ leBytes 2 p.flags ++
    leBytes 8 p.lsn ++
    (p.data ++ List.replicate (PAGE_SIZE - PAGE_HEADER_SIZE) 0).take
      (PAGE_SIZE - PAGE_HEADER_SIZE)

/-- Overwrite `bs.length` bytes of a byte-addressed file at `off`: inside
the written range the new bytes are returned, elsewhere (including past
the end of `bs`) the old contents. -/
def writeBytes (disk : Nat → Nat) (off : Nat) (bs : List Nat) : Nat → Nat :=
  fun a => if off ≤ a then bs.getD (a - off) (disk a) else disk a

/-- Read `len` consecutive bytes of a byte-addressed file. -/
def diskSlice (disk : Nat → Nat) (off : Nat) : Nat → List Nat
  | 0 => []
  | len + 1 => disk off :: diskSlice disk (off + 1) len

/-- pages.dat plus the page count tracked by struct PageManager. -/
structure PMState where
  disk : Nat → Nat
  num_pages : Nat

/-- The file offset used by page_manager_read/write/alloc:
`page_id * PAGE_SIZE` computed in uint32 arithmetic (page_id is u32 and
PAGE_SIZE an int literal, so the product wraps modulo 2^32 before being
widened to off_t). -/
def pageOffset (page_id : Nat) : Nat := (page_id * PAGE_SIZE) % 2 ^ 32

/-- page_manager_write (page_manager.c lines 70-89), successful-I/O path:
writes the first PAGE_SIZE bytes of the in-memory struct at the page's
offset, then clears dirty.  Returns STORAGE_OK on this path. -/
def page_manager_write (pm : PMState) (p : MemPage) : PMState × MemPage :=
  ({ pm with
      disk := writeBytes pm.disk (pageOffset p.page_id) ((pageStructBytes p).take PAGE_SIZE) },
   { p with dirty := false })

/-- page_manager_read (page_manager.c lines 44-68), successful-I/O path:
fails when `page_id >= num_pages`, otherwise fills a fresh struct from the
PAGE_SIZE bytes at the page's offset and then overwrites dirty/pin_count
with false/1.  Only 8164 of the 8165 `data` bytes lie within the 8192
bytes read; the last byte keeps its malloc garbage, modelled as 0. -/
def page_manager_read (pm : PMState) (page_id : Nat) : Option MemPage :=
  if page_id < pm.num_pages then
    let bs := diskSlice pm.disk (pageOffset page_id) PAGE_SIZE
    some
      { page_id := readLE bs 0 4
        checksum := readLE bs 4 4
        lower := readLE bs 8 2
        upper := readLE bs 10 2
        special := readLE bs 12 2
        flags := readLE bs 14 2
        lsn := readLE bs 16 8
        dirty := false
        pin_count := 1
        data := bs.drop 28 ++ [0] }
  else none

/-- The page built by page_manager_alloc before the file extension: zeroed,
with the header initialized and dirty/pin_count set (page_manager.c lines
92-103).  The uint32 num_pages is reduced modulo 2^32 when stored into the
u32 page_id field. -/
def freshPage (num_pages : Nat) : MemPage :=
  { page_id := num_pages % 2 ^ 32
    checksum := 0
    lower := PAGE_HEADER_SIZE
    upper := PAGE_SIZE
    special := 0
    flags := 0
    lsn := 0
    dirty := true
    pin_count := 1
    data := List.replicate MEMPAGE_DATA_SIZE 0 }

/-- Failure environment for one page_manager_alloc call: whether malloc,
lseek and the full PAGE_SIZE write succeed. -/
structure AllocEnv where
  mallocOk : Bool
  seekOk : Bool
  writeOk : Bool
deriving Repr, DecidableEq

/-- page_manager_alloc (page_manager.c lines 91-118).  Note the order in
the source: `pm->num_pages++` happens before the lseek/write, and the
failure paths free the page and return NULL without undoing the
increment.  The num_pages counter is a u32, hence the modulus. -/
def page_manager_alloc (pm : PMState) (env : AllocEnv) : Option MemPage × PMState :=
  if !env.mallocOk then (none, pm)
  else
    let page := freshPage pm.num_pages
    let pm1 := { pm with num_pages := (pm.num_pages + 1) % 2 ^ 32 }
    if !env.seekOk then (none, pm1)
    else if !env.writeOk then (none, pm1)
    else
      (some page,
        { pm1 with
            disk := writeBytes pm1.disk (pageOffset page.page_id)
              ((pageStructBytes page).take PAGE_SIZE) })

/-! ### Slotted-page tuple operations (page_manager.c lines 120-174)

Modelled on the raw struct bytes.  LinePointer is `{offset:u16,
length:u16, flags:u16}`, 6 bytes.  The line-pointer array is addressed at
`(uint8_t*)page + header.lower` with `lower` starting at
sizeof(PageHeader) = 24, so slot 0 occupies struct bytes 24-29: its
`offset` field aliases the `dirty` byte (24) and the padding byte (25),
and its `length` field aliases `pin_count` (26-27).  The final
`page->dirty = true` of add/delete therefore overwrites the low byte of
slot 0's `offset` with 1. -/

def SIZEOF_LINEPOINTER : Nat := 6

/-- Overwrite bytes [off, off+new.length) of a struct image.  (When the C
code stays in bounds this is the in-place store; out-of-range stores are
heap overflows in C and extend the list here.) -/
def patchBytes (bs : List Nat) (off : Nat) (new : List Nat) : List Nat :=
  bs.take off ++ new ++ bs.drop (off + new.length)

/-- page_get_free_space: uint16 subtraction `upper - lower`. -/
def page_get_free_space (bs : List Nat) : Nat :=
  (readLE bs 10 2 + 2 ^ 16 - readLE bs 8 2) % 2 ^ 16

/-- page_add_tuple (page_manager.c lines 124-144).  `tuple_size` is a
uint16 parameter (reduced mod 2^16 on entry); `required = tuple_size +
sizeof(LinePointer)` is truncated to uint16 by its declaration, and the
offset/upper updates are uint16 subtractions. -/
def page_add_tuple (bs : List Nat) (tuple : List Nat) (tuple_size : Nat) :
    StorageResult × List Nat :=
  let ts := tuple_size % 2 ^ 16
  let lower := readLE bs 8 2
  let upper := readLE bs 10 2
  let free_space := page_get_free_space bs
  let required := (ts + SIZEOF_LINEPOINTER) % 2 ^ 16
  if free_space < required then (.error, bs)
  else
    let off := (upper + 2 ^ 16 - ts) % 2 ^ 16
    let bs1 := patchBytes bs lower (leBytes 2 off ++ leBytes 2 ts ++ leBytes 2 0)
    let bs2 := patchBytes bs1 off (tuple.take ts ++ List.replicate (ts - tuple.length) 0)
    let bs3 := patchBytes bs2 8 (leBytes 2 ((lower + SIZEOF_LINEPOINTER) % 2 ^ 16))
    let bs4 := patchBytes bs3 10 (leBytes 2 off)
    let bs5 := patchBytes bs4 24 [1]
    (.ok, bs5)

/-- page_delete_tuple (page_manager.c lines 162-174): tombstones the slot
(flags |= 1) and sets dirty — which again stomps slot 0's offset byte. -/
def page_delete_tuple (bs : List Nat) (slot : Nat) : StorageResult × List Nat :=
  let lower := readLE bs 8 2
  let num_slots := ((lower + 2 ^ 64 - PAGE_HEADER_SIZE) % 2 ^ 64) / SIZEOF_LINEPOINTER
  if slot ≥ num_slots then (.error, bs)
  else
    let base := PAGE_HEADER_SIZE + slot * SIZEOF_LINEPOINTER
    let flags := readLE bs (base + 4) 2
    let bs1 := patchBytes bs (base + 4) (leBytes 2 (flags ||| 1))
    let bs2 := patchBytes bs1 24 [1]
    (.ok, bs2)

/-- page_get_tuple (page_manager.c lines 146-160): None for out-of-range
or tombstoned slots, else the tuple bytes the line pointer designates. -/
def page_get_tuple (bs : List Nat) (slot : Nat) : Option (List Nat) :=
  let lower := readLE bs 8 2
  let num_slots := ((lower + 2 ^ 64 - PAGE_HEADER_SIZE) % 2 ^ 64) / SIZEOF_LINEPOINTER
  if slot ≥ num_slots then none
  else
    let base := PAGE_HEADER_SIZE + slot * SIZEOF_LINEPOINTER
    if readLE bs (base + 4) 2 &&& 1 ≠ 0 then none
    else
      let off := readLE bs base 2
      let len := readLE bs (base + 2) 2
      some ((bs.drop off).take len)

/-! ## Buffer pool (src/storage/buffer/buffer_pool.c)

BufferEntry is `{Page* page, uint32_t page_id, uint64_t last_access,
bool valid}`.  In every state the code reaches, `valid` holds exactly when
`page` is non-null, so the two fields are modelled as one
`slot : Option MemPage`.  Claims are settled for runs of the pool's own
operations (get / unpin / flush_page); callers that mutate a pinned page
through the slotted-page functions can clobber the page's dirty/pin_count
bytes (the layout conflation recorded for the page claims) and are outside
this model. -/

structure Frame where
  slot : Option MemPage
  page_id : Nat
  last_access : Nat
deriving Repr, DecidableEq

def emptyFrame : Frame := { slot := none, page_id := 0, last_access := 0 }

structure BPState where
  frames : List Frame
  num_entries : Nat
  access_counter : Nat
deriving Repr, DecidableEq

/-- buffer_pool_create: all frames invalid with null pages. -/
def buffer_pool_create (capacity : Nat) : BPState :=
  { frames := List.replicate capacity emptyFrame, num_entries := 0, access_counter := 0 }

/-- buffer_pool_find_slot: first valid frame holding page_id (the scan
carries its index). -/
def findSlotGo : List Frame → Nat → Nat → Option Nat
  | [], _, _ => none
  | f :: fs, id, i =>
      if f.slot.isSome && f.page_id == id then some i else findSlotGo fs id (i + 1)

def buffer_pool_find_slot (frames : List Frame) (page_id : Nat) : Option Nat :=
  findSlotGo frames page_id 0

/-- buffer_pool_find_victim (buffer_pool.c lines 71-88): returns the first
invalid slot immediately; otherwise the valid slot with pin_count == 0 and
minimal last_access (min_access starts at UINT64_MAX, strict `<`, so the
earliest index among equals wins). -/
def findVictimGo : List Frame → Nat → Nat → Option Nat → Option Nat
  | [], _, _, best => best
  | f :: fs, i, minAccess, best =>
      match f.slot with
      | none => some i
      | some p =>
          if p.pin_count == 0 && decide (f.last_access < minAccess) then
            findVictimGo fs (i + 1) f.last_access (some i)
          else findVictimGo fs (i + 1) minAccess best

def buffer_pool_find_victim (frames : List Frame) : Option Nat :=
  findVictimGo frames 0 (2 ^ 64 - 1) none

/-- The eviction block of buffer_pool_get_page (lines 102-119): when the
pool is full, pick a victim (None when all frames are pinned), write it
back through the page manager if dirty, free it and invalidate its slot. -/
def bpEvict (bp : BPState) (pm : PMState) : Option (BPState × PMState) :=
  if bp.num_entries ≥ bp.frames.length then
    match buffer_pool_find_victim bp.frames with
    | none => none
    | some v =>
        let f := bp.frames.getD v emptyFrame
        let pm' :=
          match f.slot with
          | some vp => if vp.dirty then (page_manager_write pm vp).1 else pm
          | none => pm
        some ({ bp with
                  frames := bp.frames.set v { f with slot := none }
                  num_entries := bp.num_entries - 1 }, pm')
  else some (bp, pm)

/-- buffer_pool_get_page (buffer_pool.c lines 90-144).  Hit: bump
last_access to the old counter, increment the counter and the page's
uint16 pin_count, return the page.  Miss: evict if full, read through the
page manager, place into the slot find_victim returns (after an eviction
that is the just-invalidated slot), pin at 1. -/
def buffer_pool_get_page (bp : BPState) (pm : PMState) (page_id : Nat) :
    Option MemPage × BPState × PMState :=
  match buffer_pool_find_slot bp.frames page_id with
  | some i =>
      let f := bp.frames.getD i emptyFrame
      match f.slot with
      | some p =>
          let p' := { p with pin_count := (p.pin_count + 1) % 2 ^ 16 }
          (some p',
            { bp with
                frames := bp.frames.set i { f with slot := some p', last_access := bp.access_counter }
                access_counter := bp.access_counter + 1 }, pm)
      | none => (none, bp, pm)
  | none =>
      match bpEvict bp pm with
      | none => (none, bp, pm)
      | some (bp1, pm1) =>
          match page_manager_read pm1 page_id with
          | none => (none, bp1, pm1)
          | some page =>
              match buffer_pool_find_victim bp1.frames with
              | none => (none, bp1, pm1)
              | some j =>
                  let page' := { page with pin_count := 1 }
                  (some page',
                    { bp1 with
                        frames := bp1.frames.set j
                          { slot := some page', page_id := page_id, last_access := bp1.access_counter }
                        num_entries := bp1.num_entries + 1
                        access_counter := bp1.access_counter + 1 }, pm1)

/-- buffer_pool_unpin_page (lines 146-159).  The C function matches the
caller's Page pointer against the frames; under the one-valid-frame-per-id
invariant a live pointer's frame is the valid frame with its page_id, so
pointer matching is modelled as page_id matching (this choice only affects
which pin is decremented, never validity, ids or the frame count). -/
def buffer_pool_unpin_page (bp : BPState) (page_id : Nat) : BPState :=
  match buffer_pool_find_slot bp.frames page_id with
  | none => bp
  | some i =>
      let f := bp.frames.getD i emptyFrame
      match f.slot with
      | some p =>
          if p.pin_count > 0 then
            { bp with frames := bp.frames.set i { f with slot := some { p with pin_count := p.pin_count - 1 } } }
          else bp
      | none => bp

/-- buffer_pool_flush_page (lines 161-169) on a page resident in the pool:
write through the page manager and clear dirty. -/
def buffer_pool_flush_page (bp : BPState) (pm : PMState) (page_id : Nat) : BPState × PMState :=
  match buffer_pool_find_slot bp.frames page_id with
  | none => (bp, pm)
  | some i =>
      let f := bp.frames.getD i emptyFrame
      match f.slot with
      | some p =>
          let (pm', p') := page_manager_write pm p
          ({ bp with frames := bp.frames.set i { f with slot := some p' } }, pm')
      | none => (bp, pm)

inductive BPOp where
  | get (page_id : Nat)
  | unpin (page_id : Nat)
  | flushPage (page_id : Nat)

def bpStep : BPState × PMState → BPOp → BPState × PMState
  | (bp, pm), .get id =>
      match buffer_pool_get_page bp pm id with
      | (_, bp', pm') => (bp', pm')
  | (bp, pm), .unpin id => (buffer_pool_unpin_page bp id, pm)
  | (bp, pm), .flushPage id => buffer_pool_flush_page bp pm id

/-- A run of buffer-pool operations against a pool of the given capacity
and an initial pages file. -/
def runBP (capacity : Nat) (pm : PMState) (ops : List BPOp) : BPState × PMState :=
  ops.foldl bpStep (buffer_pool_create capacity, pm)

/-! ## B-tree index (src/storage/indexes/btree.cpp)

BTreeNode stores up to BTREE_ORDER keys; a leaf holds parallel key/value
arrays (modelled as a list of pairs), an internal node holds keys and
num_keys+1 children (the union overlays values and children, so an
internal node has no values). -/

def BTREE_ORDER : Nat := 128
def BTREE_MID : Nat := BTREE_ORDER / 2

inductive BTNode where
  | leaf (entries : List (List Nat × Nat))
  | internal (keys : List (List Nat)) (children : List BTNode)

/-- compare_keys (btree.cpp lines 46-53): unsigned byte-wise memcmp with
length as tiebreaker, i.e. lexicographic order on byte strings with a
proper prefix ordered first. -/
def compare_keys : List Nat → List Nat → Ordering
  | [], [] => .eq
  | [], _ :: _ => .lt
  | _ :: _, [] => .gt
  | a :: as, b :: bs => if a < b then .lt else if b < a then .gt else compare_keys as bs

def numKeys : BTNode → Nat
  | .leaf es => es.length
  | .internal ks _ => ks.length

/-- The leaf arm of insert_non_full scans from the right, shifting entries
while `key < keys[i]`, and writes the new pair one past the first entry
(from the right) whose key is ≤ key.  This helper performs that right
scan on the reversed entry list. -/
def leafInsertRev (key : List Nat) (value : Nat) :
    List (List Nat × Nat) → List (List Nat × Nat)
  | [] => [(key, value)]
  | e :: es =>
      if compare_keys key e.1 == .lt then e :: leafInsertRev key value es
      else (key, value) :: e :: es

def insertLeafEntries (key : List Nat) (value : Nat) (es : List (List Nat × Nat)) :
    List (List Nat × Nat) :=
  (leafInsertRev key value es.reverse).reverse

/-- The internal arm's child choice: scan i from num_keys-1 down while
`key < keys[i]`, then i++.  Equivalently, num_keys minus the length of the
maximal suffix of keys each strictly greater than key. -/
def childIdx (key : List Nat) (keys : List (List Nat)) : Nat :=
  keys.length - (keys.reverse.takeWhile (fun kk => compare_keys key kk == .lt)).length

/-- split_child (btree.cpp lines 55-89) acting on a parent's key/child
lists: the full child keeps keys[0..mid), the new right sibling receives
keys[mid+1..), and keys[mid] moves up as the separator.  For a leaf child
the values move with their keys — except values[mid], which no node
receives (internal nodes have no value array). -/
def split_child (keys : List (List Nat)) (children : List BTNode) (index : Nat) :
    List (List Nat) × List BTNode :=
  match children.getD index (.leaf []) with
  | .leaf es =>
      let sep := (es.getD BTREE_MID ([], 0)).1
      let leftNode := BTNode.leaf (es.take BTREE_MID)
      let rightNode := BTNode.leaf (es.drop (BTREE_MID + 1))
      (keys.insertIdx index sep,
        (children.set index leftNode).insertIdx (index + 1) rightNode)
  | .internal ks cs =>
      let sep := ks.getD BTREE_MID []
      let leftNode := BTNode.internal (ks.take BTREE_MID) (cs.take (BTREE_MID + 1))
      let rightNode := BTNode.internal (ks.drop (BTREE_MID + 1)) (cs.drop (BTREE_MID + 1))
      (keys.insertIdx index sep,
        (children.set index leftNode).insertIdx (index + 1) rightNode)

/-- insert_non_full (btree.cpp lines 91-119).  `fuel` bounds the recursion
depth (the C recursion descends one level per call and always terminates);
`none` reports fuel exhaustion and never occurs in the runs below. -/
def insert_non_full (fuel : Nat) (node : BTNode) (key : List Nat) (value : Nat) :
    Option BTNode :=
  match fuel with
  | 0 => none
  | fuel + 1 =>
      match node with
      | .leaf es => some (.leaf (insertLeafEntries key value es))
      | .internal ks cs =>
          let i := childIdx key ks
          if numKeys (cs.getD i (.leaf [])) == BTREE_ORDER then
            let p := split_child ks cs i
            let i' := if compare_keys key (p.1.getD i []) == .gt then i + 1 else i
            match insert_non_full fuel (p.2.getD i' (.leaf [])) key value with
            | none => none
            | some c' => some (.internal p.1 (p.2.set i' c'))
          else
            match insert_non_full fuel (cs.getD i (.leaf [])) key value with
            | none => none
            | some c' => some (.internal ks (cs.set i c'))

def BTREE_FUEL : Nat := 64

/-- storage_btree_insert (btree.cpp lines 131-145): split a full root
under a new internal root, then insert into the non-full root. -/
def storage_btree_insert (t : BTNode) (key : List Nat) (value : Nat) : Option BTNode :=
  if numKeys t == BTREE_ORDER then
    let p := split_child [] [t] 0
    insert_non_full BTREE_FUEL (.internal p.1 p.2) key value
  else insert_non_full BTREE_FUEL t key value

/-- storage_btree_search (btree.cpp lines 147-171): at each node find the
first i with ¬(key > keys[i]); on an exact match return values[i] in a
leaf, else descend into children[i+1]; otherwise descend into children[i];
a leaf without a match yields false.  The outer `some` reports that fuel
sufficed. -/
def storage_btree_search_go (fuel : Nat) (node : BTNode) (key : List Nat) :
    Option (Option Nat) :=
  match fuel with
  | 0 => none
  | fuel + 1 =>
      match node with
      | .leaf es =>
          match es.dropWhile (fun e => compare_keys key e.1 == .gt) with
          | [] => some none
          | e :: _ => if compare_keys key e.1 == .eq then some (some e.2) else some none
      | .internal ks cs =>
          let rest := ks.dropWhile (fun kk => compare_keys key kk == .gt)
          let i := ks.length - rest.length
          match rest with
          | [] => storage_btree_search_go fuel (cs.getD i (.leaf [])) key
          | kk :: _ =>
              if compare_keys key kk == .eq then
                storage_btree_search_go fuel (cs.getD (i + 1) (.leaf [])) key
              else storage_btree_search_go fuel (cs.getD i (.leaf [])) key

def storage_btree_search (t : BTNode) (key : List Nat) : Option (Option Nat) :=
  storage_btree_search_go BTREE_FUEL t key

/-- Scenario E run: insert the 129 distinct single-byte keys [0], [1], …,
[128] with values 0..128 (2·O/2+1 = BTREE_ORDER+1 keys, so the root leaf
splits on the last insert). -/
def btreeDemoTree : Option BTNode :=
  (List.range (BTREE_ORDER + 1)).foldl
    (fun acc i => acc.bind (fun t => storage_btree_insert t [i] i))
    (some (.leaf []))

def btreeDemoSearch (key : List Nat) : Option (Option Nat) :=
  btreeDemoTree.bind (fun t => storage_btree_search t key)

/-! ## Bloom filter (src/storage/indexes/bloom.cpp) -/

structure BloomFilter where
  bits : List Nat
  num_bits : Nat
  num_hashes : Nat
deriving Repr, DecidableEq

/-- storage_create_bloom: zero arguments select the 10000-bit / 3-hash
defaults; the bit array has ⌈num_bits/8⌉ bytes. -/
def storage_create_bloom (num_bits num_hashes : Nat) : BloomFilter :=
  let nb := if num_bits == 0 then 10000 else num_bits
  let nh := if num_hashes == 0 then 3 else num_hashes
  { bits := List.replicate ((nb + 7) / 8) 0, num_bits := nb, num_hashes := nh }

/-- BloomFilter::hash: h = seed; h = h*31 + byte (size_t arithmetic, mod
2^64); return h % num_bits. -/
def bloomHash (key : List Nat) (seed num_bits : Nat) : Nat :=
  (key.foldl (fun h b => (h * 31 + b) % 2 ^ 64) seed) % num_bits

/-- BloomFilter::set_bit: bits[idx/8] |= 1 << (idx%8), stored back into a
uint8_t. -/
def bloom_set_bit (bits : List Nat) (bit_idx : Nat) : List Nat :=
  let byte_idx := bit_idx / 8
  bits.set byte_idx ((bits.getD byte_idx 0 ||| (1 <<< (bit_idx % 8))) % 2 ^ 8)

/-- BloomFilter::get_bit: (bits[idx/8] & (1 << (idx%8))) != 0. -/
def bloom_get_bit (bits : List Nat) (bit_idx : Nat) : Bool :=
  (bits.getD (bit_idx / 8) 0 &&& (1 <<< (bit_idx % 8))) != 0

/-- storage_bloom_insert: set the bit for every seed in [0, num_hashes). -/
def storage_bloom_insert (f : BloomFilter) (key : List Nat) : BloomFilter :=
  { f with
      bits := (List.range f.num_hashes).foldl
        (fun bs i => bloom_set_bit bs (bloomHash key i f.num_bits)) f.bits }

/-- storage_bloom_might_contain: true iff every seed's bit is set. -/
def storage_bloom_might_contain (f : BloomFilter) (key : List Nat) : Bool :=
  (List.range f.num_hashes).all (fun i => bloom_get_bit f.bits (bloomHash key i f.num_bits))

def bloomInsertList (f : BloomFilter) (keys : List (List Nat)) : BloomFilter :=
  keys.foldl storage_bloom_insert f

/-! ## Predicates and concrete states used by the theorems -/

def walDefaultEntry : WALEntry :=
  { lsn := 0, transaction_id := 0, logical_time := 0, typ := 0, length := 0, data := [] }

/-- Well-formedness of a record handed to the WAL: the u16 type/length
fields are in range and the payload has `length` bytes (normEntry
establishes the latter for every stored record). -/
def recWF (r : WALEntry) : Prop :=
  r.data.length = r.length ∧ r.length < 2 ^ 16 ∧ r.typ < 2 ^ 16

instance (r : WALEntry) : Decidable (recWF r) := by
  unfold recWF; infer_instance

/-- The WAL bookkeeping invariant: records in file-then-buffer order carry
lsns equal to their byte offsets, buffer_pos is the buffered byte count,
and next_lsn is the total byte count. -/
def WALInv (s : WALState) : Prop :=
  fileOffsetsOk 0 (s.file ++ s.buffer) = true ∧
  s.buffer_pos = recsSize s.buffer ∧
  s.next_lsn = recsSize (s.file ++ s.buffer)

/-- A frame that is valid and whose page is pinned. -/
def frameValidPinned (f : Frame) : Bool :=
  match f.slot with
  | some p => 1 ≤ p.pin_count
  | none => false

/-- An eviction-eligible frame: invalid, or valid with pin_count 0. -/
def frameEligible (f : Frame) : Prop :=
  f.slot = none ∨ ∃ p, f.slot = some p ∧ p.pin_count = 0

/-- No two distinct valid frames hold the same page_id. -/
def framesUnique (fs : List Frame) : Prop :=
  ∀ i j, i < fs.length → j < fs.length → i ≠ j →
    (fs.getD i emptyFrame).slot.isSome = true →
    (fs.getD j emptyFrame).slot.isSome = true →
    (fs.getD i emptyFrame).page_id ≠ (fs.getD j emptyFrame).page_id

/-- At most one valid frame per page_id. -/
def BPUnique (bp : BPState) : Prop := framesUnique bp.frames

/-- All pin counts bounded by k. -/
def framesPins (fs : List Frame) (k : Nat) : Prop :=
  ∀ f ∈ fs, ∀ p, f.slot = some p → p.pin_count ≤ k

/-- All pin counts bounded by k (each operation raises a pin by at most
one, so a run of n operations keeps every pin ≤ n + 1 and the uint16
counter never wraps). -/
def pinsBounded (bp : BPState) (k : Nat) : Prop := framesPins bp.frames k

/-- A well-formed bloom filter state: at least one bit, the byte array of
the size the constructor chose, all bytes in uint8 range.  Every filter
built by storage_create_bloom satisfies this and the operations preserve
it. -/
def BloomWF (f : BloomFilter) : Prop :=
  1 ≤ f.num_bits ∧ f.bits.length = (f.num_bits + 7) / 8 ∧ ∀ b ∈ f.bits, b < 256

/-- A pages file holding one (zero-filled) page. -/
def pmDemo : PMState := { disk := fun _ => 0, num_pages := 1 }

/-- Capacity-1 pool after faulting page 0 in: its single frame is valid
and pinned. -/
def bpPinnedDemo : BPState := (runBP 1 pmDemo [.get 0]).1

/-! # Theorems -/

/-! ## Generic helper lemmas -/

theorem leBytes_length (w v : Nat) : (leBytes w v).length = w := by
  induction w generalizing v with
  | zero => rfl
  | succ w ih => simp [leBytes, ih]

theorem serializeEntry_length (e : WALEntry) :
    (serializeEntry e).length = WALENTRY_SIZE + e.data.length := by
  simp [serializeEntry, leBytes_length, WALENTRY_SIZE]
  omega

theorem normEntry_data_length (lsn : Nat) (e : WALEntry) :
    (normEntry lsn e).data.length = e.length := by
  simp [normEntry]
  omega

theorem serializeEntry_normEntry_length (lsn : Nat) (e : WALEntry) :
    (serializeEntry (normEntry lsn e)).length = entrySize e := by
  rw [serializeEntry_length, normEntry_data_length]; rfl

/-! ## C1 — the B-tree loses the value of every promoted median key -/

/-- C1: after inserting the 129 pairwise-distinct keys [0]..[128] (so the
root leaf has split once, promoting the median key [64] to the new root),
storage_btree_search finds the neighbouring keys but returns false for
[64]: split_child移 moves keys[0..63] and keys[65..128] with their values
into the two leaves and promotes keys[64] into the internal parent, which
has no value array (the union overlays values with child pointers), and
search descends past an equal separator into children[i+1], where the key
is absent.  The outer `some` certifies that no fuel was exhausted. -/
theorem btree_search_loses_median :
    btreeDemoSearch [64] = some none ∧
    btreeDemoSearch [63] = some (some 63) ∧
    btreeDemoSearch [65] = some (some 65) ∧
    btreeDemoSearch [0] = some (some 0) ∧
    btreeDemoSearch [128] = some (some 128) := by
  decide

/-! ## C2 — WAL records occupy 32 + length bytes, not 24 + length -/

/-- C2 counterexample: the first Scenario-B record (2-byte payload)
occupies 34 bytes in the log, and the second append is assigned LSN 34,
not 26 as the claim states. -/
theorem wal_record_size_not_24 :
    (serializeEntry (normEntry 0 walEntryA)).length = 34 ∧
    (runWAL walInit walDemoOps).2 = [0, 34] ∧ ¬ (34 = 24 + 2) := by
  constructor
  · decide
  · constructor
    · decide
    · decide

/-- C2 amended: every record occupies exactly sizeof(WALEntry) + length =
32 + length bytes of log space; appending a 2-byte-payload record and
then an empty-payload record to an empty log assigns LSNs 0 and 34, and
replay visits exactly those two records in order. -/
theorem wal_record_footprint :
    (∀ lsn e, (serializeEntry (normEntry lsn e)).length = WALENTRY_SIZE + e.length) ∧
    (runWAL walInit walDemoOps).2 = [0, 34] ∧
    storage_wal_replay (walFileBytes (runWAL walInit walDemoOps).1) =
      ([{ offset := 0, typ := 1, length := 2 }, { offset := 34, typ := 4, length := 0 }],
        .ok) := by
  refine ⟨fun lsn e => serializeEntry_normEntry_length lsn e, by decide, by decide⟩

/-! ## C3 — page_manager_write persists the transient fields -/

/-- C3: page_manager_write copies the first 8192 bytes of the in-memory
struct verbatim, so the dirty byte lands at file offset 24 and pin_count
at offsets 26-27 — exactly where the specified on-disk layout places the
first payload bytes.  For the freshly allocated (dirty, pinned) page 0:
the persisted byte 24 is 1 and byte 26 is 1, while the spec layout stores
0 there; reading the page back still returns the header fields and
dirty=false, pin_count=1. -/
theorem page_manager_write_persists_transients :
    ((page_manager_write pmDemo (freshPage 0)).1.disk 24 = 1 ∧
      (page_manager_write pmDemo (freshPage 0)).1.disk 26 = 1) ∧
    (specOnDiskPage (freshPage 0)).getD 24 0 = 0 ∧
    (specOnDiskPage (freshPage 0)).getD 26 0 = 0 ∧
    ((page_manager_read (page_manager_write pmDemo (freshPage 0)).1 0).map
        (fun p => (p.page_id, p.lower, p.upper, p.dirty, p.pin_count))
      = some (0, 24, 8192, false, 1)) := by
  refine ⟨⟨by decide, by decide⟩, by decide, by decide, by decide⟩

/-! ## C5 — slotted-page adds break the header/slot invariant -/

/-- C5: two independent violations of the slotted-page invariant.
First, on a fresh page a successful `page_add_tuple(page, "hello", 5)`
leaves slot 0 with offset 7937 and length 5 (the line-pointer array is
addressed from the struct base, so slot 0 sits at struct bytes 24-29 and
the final `page->dirty = true` overwrites the low byte of its offset with
1: 8187 = 0x1FFB becomes 0x1F01 = 7937); the slot is live (flags 0) and
its span [7937, 7942) does not lie within [upper, P) = [8187, 8192).
Second, `page_add_tuple(page, "", 65535)` also succeeds — `required =
tuple_size + sizeof(LinePointer)` truncates to 5 in its uint16
declaration — and leaves upper = 8193 > P = 8192. -/
theorem page_add_tuple_breaks_invariant :
    ((page_add_tuple (pageStructBytes (freshPage 0)) [104, 101, 108, 108, 111] 5).1 =
        .ok ∧
      readLE (page_add_tuple (pageStructBytes (freshPage 0)) [104, 101, 108, 108, 111] 5).2 10 2 = 8187 ∧
      readLE (page_add_tuple (pageStructBytes (freshPage 0)) [104, 101, 108, 108, 111] 5).2 24 2 = 7937 ∧
      readLE (page_add_tuple (pageStructBytes (freshPage 0)) [104, 101, 108, 108, 111] 5).2 26 2 = 5 ∧
      readLE (page_add_tuple (pageStructBytes (freshPage 0)) [104, 101, 108, 108, 111] 5).2 28 2 = 0 ∧
      ¬ (8187 ≤ 7937)) ∧
    ((page_add_tuple (pageStructBytes (freshPage 0)) [] 65535).1 = .ok ∧
      readLE (page_add_tuple (pageStructBytes (freshPage 0)) [] 65535).2 10 2 = 8193 ∧
      ¬ ((8193 : Nat) ≤ 8192)) := by
  refine ⟨⟨by decide, by decide, by decide, by decide, by decide, by decide⟩,
    by decide, by decide, by decide⟩

/-! ## C8 — page_manager_alloc increments num_pages before the file I/O -/

/-- C8 counterexample: with malloc succeeding and lseek failing, alloc
returns None yet num_pages has moved from 0 to 1. -/
theorem page_manager_alloc_counts_failed_alloc :
    (page_manager_alloc { disk := fun _ => 0, num_pages := 0 } ⟨true, false, true⟩).1 = none ∧
    (page_manager_alloc { disk := fun _ => 0, num_pages := 0 } ⟨true, false, true⟩).2.num_pages = 1 ∧
    ¬ ((1 : Nat) = 0) := by
  refine ⟨by decide, by decide, by decide⟩

/-- C8 amended: num_pages is unchanged only when malloc fails; whenever
malloc succeeds it is incremented (mod 2^32) regardless of whether the
seek/write that extends the file succeeds, and on full success alloc
returns the fresh page with page_id = old num_pages (mod 2^32),
lower = sizeof(header), upper = P, dirty = true, pin_count = 1. -/
theorem page_manager_alloc_num_pages (pm : PMState) (env : AllocEnv) :
    (env.mallocOk = false → page_manager_alloc pm env = (none, pm)) ∧
    (env.mallocOk = true →
      (page_manager_alloc pm env).2.num_pages = (pm.num_pages + 1) % 2 ^ 32) ∧
    (env.mallocOk = true → (env.seekOk = false ∨ env.writeOk = false) →
      (page_manager_alloc pm env).1 = none) ∧
    (env.mallocOk = true → env.seekOk = true → env.writeOk = true →
      (page_manager_alloc pm env).1 = some (freshPage pm.num_pages)) ∧
    (freshPage pm.num_pages).page_id = pm.num_pages % 2 ^ 32 ∧
    (freshPage pm.num_pages).lower = PAGE_HEADER_SIZE ∧
    (freshPage pm.num_pages).upper = PAGE_SIZE ∧
    (freshPage pm.num_pages).dirty = true ∧
    (freshPage pm.num_pages).pin_count = 1 := by
  obtain ⟨m, sk, w⟩ := env
  cases m <;> cases sk <;> cases w <;>
    simp [page_manager_alloc, freshPage]

/-- Witness for C8's amended theorem at a concrete input. -/
theorem page_manager_alloc_num_pages_witness :
    (page_manager_alloc { disk := fun _ => 0, num_pages := 0 } ⟨true, true, true⟩).1 =
      some (freshPage 0) :=
  (page_manager_alloc_num_pages { disk := fun _ => 0, num_pages := 0 }
    ⟨true, true, true⟩).2.2.2.1 rfl rfl rfl

/-! ## C9 — a maximal-length record overruns the WAL buffer -/

/-- C9 counterexample: for a record with length 65535 the conditional
flush leaves buffer_pos = 0, but 0 + entry_size = 32 + 65535 = 65567
still exceeds the 65536-byte buffer, so the subsequent copy overruns it. -/
theorem wal_append_overflow :
    ¬ ((appendPreCopyState walInit walOversize).buffer_pos + entrySize walOversize ≤
        WAL_BUFFER_SIZE) := by
  decide

/-- C9 amended: for payload lengths up to WAL_BUFFER_SIZE −
sizeof(WALEntry) = 65504, the copy performed by storage_wal_append stays
within the buffer: after the conditional flush, buffer_pos + entry_size ≤
buffer_capacity. -/
theorem wal_append_fits_buffer (s : WALState) (e : WALEntry)
    (h : e.length ≤ WAL_BUFFER_SIZE - WALENTRY_SIZE) :
    (appendPreCopyState s e).buffer_pos + entrySize e ≤ WAL_BUFFER_SIZE := by
  unfold appendPreCopyState entrySize WALENTRY_SIZE WAL_BUFFER_SIZE at *
  split
  · simp only [wal_flush_internal]
    omega
  · omega

/-- Witness for C9's amended theorem. -/
theorem wal_append_fits_buffer_witness :
    (appendPreCopyState walInit walEntryA).buffer_pos + entrySize walEntryA ≤
      WAL_BUFFER_SIZE :=
  wal_append_fits_buffer walInit walEntryA (by decide)

/-! ## C4 — LSN monotonicity and lsn = byte offset -/

theorem recsSize_cons (r : WALEntry) (l : List WALEntry) :
    recsSize (r :: l) = (serializeEntry r).length + recsSize l := by
  simp [recsSize]

theorem recsSize_append (a b : List WALEntry) :
    recsSize (a ++ b) = recsSize a + recsSize b := by
  simp [recsSize]

theorem fileOffsetsOk_append (a : List WALEntry) (acc : Nat) (b : List WALEntry) :
    fileOffsetsOk acc (a ++ b) =
      (fileOffsetsOk acc a && fileOffsetsOk (acc + recsSize a) b) := by
  induction a generalizing acc with
  | nil => simp [fileOffsetsOk, recsSize]
  | cons r rs ih =>
      simp [fileOffsetsOk, ih, recsSize_cons, Bool.and_assoc, Nat.add_assoc]

theorem WALInv_flush (s : WALState) (h : WALInv s) : WALInv (wal_flush_internal s) := by
  obtain ⟨h1, h2, h3⟩ := h
  refine ⟨?_, rfl, ?_⟩
  · simpa [wal_flush_internal] using h1
  · simpa [wal_flush_internal] using h3

theorem appendPreCopyState_inv (s : WALState) (e : WALEntry) (h : WALInv s) :
    WALInv (appendPreCopyState s e) := by
  unfold appendPreCopyState
  split
  · exact WALInv_flush s h
  · exact h

theorem appendPreCopyState_frames (s : WALState) (e : WALEntry) :
    (appendPreCopyState s e).file ++ (appendPreCopyState s e).buffer = s.file ++ s.buffer ∧
    (appendPreCopyState s e).next_lsn = s.next_lsn := by
  unfold appendPreCopyState wal_flush_internal
  split <;> simp

theorem WALInv_append (s : WALState) (e : WALEntry) (h : WALInv s) :
    WALInv (storage_wal_append s e).1 := by
  obtain ⟨hfb, hnl⟩ := appendPreCopyState_frames s e
  obtain ⟨g1, g2, g3⟩ := appendPreCopyState_inv s e h
  refine ⟨?_, ?_, ?_⟩
  · show fileOffsetsOk 0 ((appendPreCopyState s e).file ++
      ((appendPreCopyState s e).buffer ++ [normEntry s.next_lsn e])) = true
    rw [← List.append_assoc, hfb, fileOffsetsOk_append]
    have hlsn : (normEntry s.next_lsn e).lsn = 0 + recsSize (s.file ++ s.buffer) := by
      simp [normEntry, h.2.2]
    simp [fileOffsetsOk, h.1, hlsn]
  · show (appendPreCopyState s e).buffer_pos + entrySize e =
      recsSize ((appendPreCopyState s e).buffer ++ [normEntry s.next_lsn e])
    rw [recsSize_append, g2, recsSize_cons]
    simp [recsSize, serializeEntry_normEntry_length]
  · show (appendPreCopyState s e).next_lsn + entrySize e =
      recsSize ((appendPreCopyState s e).file ++
        ((appendPreCopyState s e).buffer ++ [normEntry s.next_lsn e]))
    rw [← List.append_assoc, recsSize_append, hfb, hnl, h.2.2, recsSize_cons]
    simp [recsSize, serializeEntry_normEntry_length]

theorem walStep_inv (s : WALState) (op : WALOp) (h : WALInv s) :
    WALInv (walStep s op).1 := by
  cases op with
  | append e => exact WALInv_append s e h
  | flush => exact WALInv_flush s h

theorem runWAL_inv (ops : List WALOp) : ∀ s : WALState, WALInv s →
    WALInv (runWAL s ops).1 := by
  induction ops with
  | nil => intro s h; exact h
  | cons op ops ih =>
      intro s h
      simpa [runWAL] using ih (walStep s op).1 (walStep_inv s op h)

theorem walStep_next_lsn (s : WALState) (op : WALOp) :
    s.next_lsn ≤ (walStep s op).1.next_lsn := by
  cases op with
  | append e =>
      have h := (appendPreCopyState_frames s e).2
      simp [walStep, storage_wal_append, h]
  | flush => exact Nat.le_refl _

theorem runWAL_outs_lb (ops : List WALOp) : ∀ (s : WALState) (o : Nat),
    o ∈ (runWAL s ops).2 → s.next_lsn ≤ o := by
  induction ops with
  | nil => intro s o h; simp [runWAL] at h
  | cons op ops ih =>
      intro s o h
      simp only [runWAL] at h
      rcases List.mem_append.1 h with h1 | h2
      · cases op with
        | append e =>
            simp [walStep, storage_wal_append] at h1
            omega
        | flush => simp [walStep] at h1
      · exact Nat.le_trans (walStep_next_lsn s op) (ih (walStep s op).1 o h2)

theorem runWAL_pairwise (ops : List WALOp) : ∀ s : WALState,
    ((runWAL s ops).2).Pairwise (· < ·) := by
  induction ops with
  | nil => intro s; simp [runWAL]
  | cons op ops ih =>
      intro s
      cases op with
      | append e =>
          have hlt : s.next_lsn < (walStep s (WALOp.append e)).1.next_lsn := by
            have h := (appendPreCopyState_frames s e).2
            simp [walStep, storage_wal_append, h, entrySize, WALENTRY_SIZE]
          simp only [runWAL, walStep]
          refine List.Pairwise.cons ?_ (ih (storage_wal_append s e).1)
          intro o ho
          have hle := runWAL_outs_lb ops (storage_wal_append s e).1 o ho
          have : (storage_wal_append s e).2 = s.next_lsn := rfl
          rw [this]
          exact Nat.lt_of_lt_of_le (by simpa [walStep] using hlt) hle
      | flush =>
          simpa [runWAL, walStep] using ih (wal_flush_internal s)

theorem fileOffsetsOk_getD (l : List WALEntry) : ∀ acc : Nat,
    fileOffsetsOk acc l = true → ∀ k, k < l.length →
      (l.getD k walDefaultEntry).lsn =
        acc + (((l.take k).map serializeEntry).flatten).length := by
  induction l with
  | nil => intro acc _ k hk; simp at hk
  | cons r rs ih =>
      intro acc h k hk
      simp only [fileOffsetsOk, Bool.and_eq_true, beq_iff_eq] at h
      cases k with
      | zero => simpa using h.1
      | succ k =>
          have hk' : k < rs.length := by simpa using hk
          have := ih (acc + (serializeEntry r).length) h.2 k hk'
          simp only [List.getD_cons_succ, List.take_succ_cons, List.map_cons,
            List.flatten_cons, List.length_append] at this ⊢
          omega

/-- C4: in every run of appends and flushes from an empty log, the LSNs
returned by the successful appends are strictly increasing in call order,
and each record flushed to wal.log has its lsn field equal to the byte
offset at which the record starts in the file (the length of the
serialized records before it). -/
theorem wal_lsn_monotone_and_offsets (ops : List WALOp) :
    ((runWAL walInit ops).2).Pairwise (· < ·) ∧
    (∀ k, k < (runWAL walInit ops).1.file.length →
      ((runWAL walInit ops).1.file.getD k walDefaultEntry).lsn =
        ((((runWAL walInit ops).1.file.take k).map serializeEntry).flatten).length) := by
  constructor
  · exact runWAL_pairwise ops walInit
  · intro k hk
    have hinv := runWAL_inv ops walInit ⟨rfl, rfl, rfl⟩
    have hfile : fileOffsetsOk 0 (runWAL walInit ops).1.file = true := by
      have h1 := hinv.1
      rw [fileOffsetsOk_append, Bool.and_eq_true] at h1
      exact h1.1
    simpa using fileOffsetsOk_getD (runWAL walInit ops).1.file 0 hfile k hk

/-- Witness for C4 on the Scenario-B run: the second flushed record's lsn
equals the byte offset at which it starts (34). -/
theorem wal_lsn_monotone_and_offsets_witness :
    ((runWAL walInit walDemoOps).1.file.getD 1 walDefaultEntry).lsn =
      ((((runWAL walInit walDemoOps).1.file.take 1).map serializeEntry).flatten).length :=
  (wal_lsn_monotone_and_offsets walDemoOps).2 1 (by decide)

/-! ## C7 — replay continues past unknown types; truncated tails are benign -/

/-- C7 counterexample: replay of a log holding a record of unknown type 99
followed by an Insert record visits both records (the switch has no
default and the walk continues), returning ok — it does not terminate at
the unknown-type record. -/
theorem wal_replay_visits_after_unknown_type :
    storage_wal_replay walUnknownTypeLog =
      ([{ offset := 0, typ := 99, length := 0 }, { offset := 32, typ := 1, length := 0 }],
        .ok) ∧
    ¬ (99 = 1 ∨ 99 = 2 ∨ 99 = 3 ∨ 99 = 4 ∨ 99 = 5 ∨ 99 = 6) := by
  exact ⟨by decide, by decide⟩

theorem readLE_append_right (a b : List Nat) : ∀ (w i : Nat),
    readLE (a ++ b) (a.length + i) w = readLE b i w := by
  intro w
  induction w with
  | zero => intro i; rfl
  | succ w ih =>
      intro i
      unfold readLE
      have h1 : (a ++ b).getD (a.length + i) 0 = b.getD i 0 := by
        rw [List.getD_append_right a b 0 (a.length + i) (by omega)]
        congr 1
        omega
      have h2 : a.length + i + 1 = a.length + (i + 1) := by omega
      rw [h1, h2, ih (i + 1)]

theorem replayGo_append_shift (a b : List Nat) : ∀ (fuel k : Nat),
    replayGo (a ++ b) fuel (a.length + k) =
      (replayGo b fuel k).map (fun rr => { rr with offset := a.length + rr.offset }) := by
  intro fuel
  induction fuel with
  | zero => intro k; rfl
  | succ fuel ih =>
      intro k
      have hlen : (a ++ b).length = a.length + b.length := List.length_append a b
      have hread26 : readLE (a ++ b) (a.length + k + 26) 2 = readLE b (k + 26) 2 := by
        have h : a.length + k + 26 = a.length + (k + 26) := by omega
        rw [h, readLE_append_right]
      have hread24 : readLE (a ++ b) (a.length + k + 24) 2 = readLE b (k + 24) 2 := by
        have h : a.length + k + 24 = a.length + (k + 24) := by omega
        rw [h, readLE_append_right]
      simp only [replayGo, hlen, hread26, hread24]
      by_cases hk : k < b.length
      · rw [if_pos (by omega), if_pos hk]
        by_cases hbreak : k + (WALENTRY_SIZE + readLE b (k + 26) 2) > b.length
        · rw [if_pos (by omega), if_pos hbreak]
          rfl
        · rw [if_neg (by omega), if_neg hbreak]
          have h : a.length + k + (WALENTRY_SIZE + readLE b (k + 26) 2) =
              a.length + (k + (WALENTRY_SIZE + readLE b (k + 26) 2)) := by omega
          rw [h, ih]
          rfl
      · rw [if_neg (by omega), if_neg hk]
        rfl

/-- Re-association of the serialized record so that the type and length
fields sit at the heads of explicit suffixes. -/
theorem serializeEntry_decomp (e : WALEntry) :
    serializeEntry e =
      ((leBytes 8 e.lsn ++ leBytes 4 e.transaction_id ++ [0, 0, 0, 0] ++
          leBytes 8 e.logical_time) ++ leBytes 2 e.typ) ++
        (leBytes 2 e.length ++ (e.data ++ [0, 0, 0, 0])) := by
  simp [serializeEntry]

theorem readLE_leBytes2 (v : Nat) (rest : List Nat) :
    readLE (leBytes 2 v ++ rest) 0 2 = v % 2 ^ 16 := by
  show (leBytes 2 v ++ rest).getD 0 0 +
      256 * ((leBytes 2 v ++ rest).getD 1 0 + 256 * 0) = v % 2 ^ 16
  simp [leBytes]
  omega

theorem readLE_prefix_skip (a b : List Nat) (n w : Nat) (h : a.length = n) :
    readLE (a ++ b) n w = readLE b 0 w := by
  subst h
  simpa using readLE_append_right a b w 0

theorem readLE_serializeEntry_len (e : WALEntry) (rest : List Nat) :
    readLE (serializeEntry e ++ rest) 26 2 = e.length % 2 ^ 16 := by
  have hsplit : serializeEntry e ++ rest =
      ((leBytes 8 e.lsn ++ leBytes 4 e.transaction_id ++ [0, 0, 0, 0] ++
          leBytes 8 e.logical_time) ++ leBytes 2 e.typ) ++
        (leBytes 2 e.length ++ ((e.data ++ [0, 0, 0, 0]) ++ rest)) := by
    simp [serializeEntry]
  rw [hsplit, readLE_prefix_skip _ _ 26 2 (by simp [leBytes_length]), readLE_leBytes2]

theorem readLE_serializeEntry_typ (e : WALEntry) (rest : List Nat) :
    readLE (serializeEntry e ++ rest) 24 2 = e.typ % 2 ^ 16 := by
  have hsplit : serializeEntry e ++ rest =
      (leBytes 8 e.lsn ++ leBytes 4 e.transaction_id ++ [0, 0, 0, 0] ++
          leBytes 8 e.logical_time) ++
        (leBytes 2 e.typ ++ (leBytes 2 e.length ++ ((e.data ++ [0, 0, 0, 0]) ++ rest))) := by
    simp [serializeEntry]
  rw [hsplit, readLE_prefix_skip _ _ 24 2 (by simp [leBytes_length]), readLE_leBytes2]

theorem replaySummaries_shift (recs : List WALEntry) : ∀ n k : Nat,
    replaySummaries (n + k) recs =
      (replaySummaries k recs).map (fun rr => { rr with offset := n + rr.offset }) := by
  induction recs with
  | nil => intro n k; rfl
  | cons r rs ih =>
      intro n k
      simp only [replaySummaries, List.map_cons]
      have htail : replaySummaries (n + k + WALENTRY_SIZE + r.length) rs =
          (replaySummaries (k + WALENTRY_SIZE + r.length) rs).map
            (fun rr => { rr with offset := n + rr.offset }) := by
        have h : n + k + WALENTRY_SIZE + r.length = n + (k + WALENTRY_SIZE + r.length) := by
          omega
        rw [h, ih]
      rw [htail]

theorem replayGo_full (recs : List WALEntry) : ∀ (tail : List Nat) (fuel : Nat),
    (∀ r ∈ recs, recWF r) →
    tail.length < WALENTRY_SIZE + readLE tail 26 2 →
    recs.length < fuel →
    replayGo ((recs.map serializeEntry).flatten ++ tail) fuel 0 = replaySummaries 0 recs := by
  induction recs with
  | nil =>
      intro tail fuel _ htail hfuel
      cases fuel with
      | zero => omega
      | succ f =>
          simp only [List.map_nil, List.flatten_nil, List.nil_append, replaySummaries,
            replayGo, Nat.zero_add]
          by_cases h0 : 0 < tail.length
          · rw [if_pos h0, if_pos (by omega)]
          · rw [if_neg h0]
  | cons r rs ih =>
      intro tail fuel hwf htail hfuel
      cases fuel with
      | zero => omega
      | succ f =>
          obtain ⟨hw1, hw2, hw3⟩ := hwf r (by simp)
          have hW : WALENTRY_SIZE = 32 := rfl
          have hser : (serializeEntry r).length = WALENTRY_SIZE + r.length := by
            rw [serializeEntry_length, hw1]
          have hbytes : ((r :: rs).map serializeEntry).flatten ++ tail =
              serializeEntry r ++ ((rs.map serializeEntry).flatten ++ tail) := by
            simp
          rw [hbytes]
          have hlen26 : readLE (serializeEntry r ++ ((rs.map serializeEntry).flatten ++ tail))
              26 2 = r.length := by
            rw [readLE_serializeEntry_len]
            exact Nat.mod_eq_of_lt hw2
          have htyp : readLE (serializeEntry r ++ ((rs.map serializeEntry).flatten ++ tail))
              24 2 = r.typ := by
            rw [readLE_serializeEntry_typ]
            exact Nat.mod_eq_of_lt hw3
          have hlentot : (serializeEntry r ++ ((rs.map serializeEntry).flatten ++ tail)).length =
              (WALENTRY_SIZE + r.length) + ((rs.map serializeEntry).flatten ++ tail).length := by
            rw [List.length_append, hser]
          simp only [replayGo, Nat.zero_add, hlen26, htyp, hlentot]
          rw [if_pos (by omega), if_neg (by omega)]
          have hoff : WALENTRY_SIZE + r.length = (serializeEntry r).length + 0 := by
            rw [hser]
            omega
          rw [hoff, replayGo_append_shift (serializeEntry r) ((rs.map serializeEntry).flatten ++ tail) f 0]
          have hrest : replayGo ((rs.map serializeEntry).flatten ++ tail) f 0 =
              replaySummaries 0 rs :=
            ih tail f (fun x hx => hwf x (by simp [hx])) htail (by simpa using Nat.lt_of_succ_lt_succ hfuel)
          rw [hrest]
          simp only [replaySummaries, hser]
          have hsum : replaySummaries (0 + WALENTRY_SIZE + r.length) rs =
              (replaySummaries 0 rs).map
                (fun rr => { rr with offset := WALENTRY_SIZE + r.length + rr.offset }) := by
            have h1 : 0 + WALENTRY_SIZE + r.length = (WALENTRY_SIZE + r.length) + 0 := by omega
            rw [h1, replaySummaries_shift]
          rw [hsum]

theorem flatten_serialize_length_ge (recs : List WALEntry) :
    recs.length ≤ ((recs.map serializeEntry).flatten).length := by
  induction recs with
  | nil => simp
  | cons r rs ih =>
      simp only [List.map_cons, List.flatten_cons, List.length_append, List.length_cons]
      have h := serializeEntry_length r
      simp only [WALENTRY_SIZE] at h
      omega

/-- C7 amended: storage_wal_replay walks every complete record in order
regardless of its type — unknown types are skipped exactly like the six
known ones (the switch has no default and every case is empty) — and a
truncated trailing record (one whose offset + entry_size would exceed the
file size, entry_size being read from the truncated bytes) stops the walk
silently: replay returns Ok having visited exactly the complete records. -/
theorem wal_replay_visits_complete_records (recs : List WALEntry) (tail : List Nat)
    (hwf : ∀ r ∈ recs, recWF r)
    (htail : tail.length < WALENTRY_SIZE + readLE tail 26 2) :
    storage_wal_replay ((recs.map serializeEntry).flatten ++ tail) =
      (replaySummaries 0 recs, .ok) := by
  unfold storage_wal_replay
  have hfuel : recs.length < ((recs.map serializeEntry).flatten ++ tail).length + 1 := by
    have h1 := flatten_serialize_length_ge recs
    rw [List.length_append]
    omega
  rw [replayGo_full recs tail _ hwf htail hfuel]

/-- Witness for C7's amended theorem: a log holding an unknown-type record
and an Insert record followed by a 3-byte truncated tail replays to
exactly the two complete records. -/
theorem wal_replay_visits_complete_records_witness :
    storage_wal_replay
        (([normEntry 0 walEntryUnknown, normEntry 32 walEntryKnown].map serializeEntry).flatten
          ++ [1, 2, 3]) =
      (replaySummaries 0 [normEntry 0 walEntryUnknown, normEntry 32 walEntryKnown], .ok) :=
  wal_replay_visits_complete_records
    [normEntry 0 walEntryUnknown, normEntry 32 walEntryKnown] [1, 2, 3]
    (by decide) (by decide)

/-! ## C10 — the bloom filter has no false negatives -/

theorem getD_set_same (l : List Nat) (i : Nat) (x d : Nat) (h : i < l.length) :
    (l.set i x).getD i d = x := by
  simp [List.getD_eq_getElem?_getD, List.getElem?_set_self, h]

theorem getD_set_other (l : List Nat) (i j : Nat) (x d : Nat) (h : i ≠ j) :
    (l.set i x).getD j d = l.getD j d := by
  simp [List.getD_eq_getElem?_getD, List.getElem?_set_ne h]

theorem getD_lt_of_bounds (l : List Nat) (n : Nat) (h : n < l.length)
    (hb : ∀ b ∈ l, b < 256) : l.getD n 0 < 256 := by
  have h1 : l.getD n 0 = l[n] := by
    simp [List.getD_eq_getElem?_getD, List.getElem?_eq_getElem h]
  rw [h1]
  exact hb _ (List.getElem_mem h)

theorem lt256_pow (x : Nat) (h : x < 256) : x < 2 ^ 8 := by
  norm_num
  exact h

theorem lor_shift_lt (x k : Nat) (hx : x < 2 ^ 8) (hk : k < 8) :
    x ||| (1 <<< k) < 2 ^ 8 := by
  have h1 : (1 <<< k) = 2 ^ k := by simp [Nat.shiftLeft_eq]
  have h2 : (2 : Nat) ^ k < 2 ^ 8 := Nat.pow_lt_pow_right (by norm_num) hk
  rw [h1]
  exact Nat.or_lt_two_pow hx h2

theorem and_shift_ne_zero (x k : Nat) : ((x &&& (1 <<< k)) != 0) = x.testBit k := by
  have h1 : (1 <<< k) = 2 ^ k := by simp [Nat.shiftLeft_eq]
  rw [h1, Nat.and_two_pow]
  cases hx : x.testBit k <;> simp [Nat.pos_iff_ne_zero, Nat.pos_pow_of_pos]

theorem bloom_set_bit_length (bits : List Nat) (i : Nat) :
    (bloom_set_bit bits i).length = bits.length := by
  simp [bloom_set_bit]

theorem bloom_set_bit_bounds (bits : List Nat) (i : Nat)
    (hb : ∀ b ∈ bits, b < 256) : ∀ b ∈ bloom_set_bit bits i, b < 256 := by
  intro b hbmem
  rcases List.mem_or_eq_of_mem_set hbmem with h | h
  · exact hb b h
  · subst h
    exact Nat.mod_lt _ (by norm_num)

theorem bloom_get_bit_set_same (bits : List Nat) (idx : Nat)
    (hlen : idx / 8 < bits.length) (hb : ∀ b ∈ bits, b < 256) :
    bloom_get_bit (bloom_set_bit bits idx) idx = true := by
  simp only [bloom_get_bit, bloom_set_bit]
  rw [getD_set_same _ _ _ _ hlen]
  have hold := getD_lt_of_bounds bits (idx / 8) hlen hb
  have hlt : bits.getD (idx / 8) 0 ||| (1 <<< (idx % 8)) < 2 ^ 8 :=
    lor_shift_lt _ _ (lt256_pow _ hold) (Nat.mod_lt _ (by norm_num))
  rw [Nat.mod_eq_of_lt hlt, and_shift_ne_zero]
  simp [Nat.shiftLeft_eq, Nat.testBit_lor, Nat.testBit_two_pow_self]

theorem bloom_get_bit_set_mono (bits : List Nat) (i j : Nat)
    (hb : ∀ b ∈ bits, b < 256)
    (h : bloom_get_bit bits j = true) :
    bloom_get_bit (bloom_set_bit bits i) j = true := by
  have h' : ((bits.getD (j / 8) 0 &&& (1 <<< (j % 8))) != 0) = true := by
    simpa only [bloom_get_bit] using h
  rw [and_shift_ne_zero] at h'
  simp only [bloom_get_bit, bloom_set_bit]
  by_cases hij : i / 8 = j / 8
  · by_cases hlen : i / 8 < bits.length
    · rw [hij] at hlen ⊢
      rw [getD_set_same _ _ _ _ hlen]
      have hold := getD_lt_of_bounds bits (j / 8) hlen hb
      have hlt : bits.getD (j / 8) 0 ||| (1 <<< (i % 8)) < 2 ^ 8 :=
        lor_shift_lt _ _ (lt256_pow _ hold) (Nat.mod_lt _ (by norm_num))
      rw [Nat.mod_eq_of_lt hlt, and_shift_ne_zero]
      simp only [List.getD_eq_getElem?_getD] at h'
      simp [Nat.shiftLeft_eq, Nat.testBit_lor, h']
    · exfalso
      rw [hij] at hlen
      have hz : bits.getD (j / 8) 0 = 0 := List.getD_eq_default _ _ (by omega)
      rw [hz] at h'
      simp at h'
  · rw [getD_set_other _ _ _ _ _ hij]
    simpa only [bloom_get_bit] using h

theorem bloom_fold_length (g : Nat → Nat) (l : List Nat) : ∀ bits : List Nat,
    (l.foldl (fun bs i => bloom_set_bit bs (g i)) bits).length = bits.length := by
  induction l with
  | nil => intro bits; rfl
  | cons a l ih =>
      intro bits
      rw [List.foldl_cons, ih, bloom_set_bit_length]

theorem bloom_fold_bounds (g : Nat → Nat) (l : List Nat) : ∀ bits : List Nat,
    (∀ b ∈ bits, b < 256) →
    ∀ b ∈ l.foldl (fun bs i => bloom_set_bit bs (g i)) bits, b < 256 := by
  induction l with
  | nil => intro bits hb; exact hb
  | cons a l ih =>
      intro bits hb
      exact ih _ (bloom_set_bit_bounds _ _ hb)

theorem bloom_fold_preserves (g : Nat → Nat) (l : List Nat) : ∀ (bits : List Nat) (j : Nat),
    (∀ b ∈ bits, b < 256) → bloom_get_bit bits j = true →
    bloom_get_bit (l.foldl (fun bs i => bloom_set_bit bs (g i)) bits) j = true := by
  induction l with
  | nil => intro bits j _ h; exact h
  | cons a l ih =>
      intro bits j hb h
      exact ih _ j (bloom_set_bit_bounds _ _ hb) (bloom_get_bit_set_mono _ _ _ hb h)

theorem bloom_fold_sets (g : Nat → Nat) (l : List Nat) : ∀ bits : List Nat,
    (∀ b ∈ bits, b < 256) → (∀ i ∈ l, g i / 8 < bits.length) →
    ∀ i ∈ l, bloom_get_bit (l.foldl (fun bs i => bloom_set_bit bs (g i)) bits) (g i) = true := by
  induction l with
  | nil => intro bits _ _ i hi; simp at hi
  | cons a l ih =>
      intro bits hb hg i hi
      rw [List.foldl_cons]
      rcases List.mem_cons.1 hi with h | h
      · subst h
        exact bloom_fold_preserves g l _ _ (bloom_set_bit_bounds _ _ hb)
          (bloom_get_bit_set_same bits (g i) (hg i (by simp)) hb)
      · exact ih (bloom_set_bit bits (g a)) (bloom_set_bit_bounds _ _ hb)
          (fun x hx => by rw [bloom_set_bit_length]; exact hg x (by simp [hx])) i h

theorem bloomWF_mk (n m : Nat) (hn : 1 ≤ n) :
    BloomWF { bits := List.replicate ((n + 7) / 8) 0, num_bits := n, num_hashes := m } :=
  ⟨hn, List.length_replicate _ _, fun b hb => by
    have hb0 : b = 0 := List.eq_of_mem_replicate hb
    omega⟩

theorem bloom_create_wf (nb nh : Nat) : BloomWF (storage_create_bloom nb nh) := by
  have hn : 1 ≤ (if (nb == 0) = true then 10000 else nb) := by
    cases hc : nb == 0
    · rw [if_neg Bool.false_ne_true]
      exact Nat.one_le_iff_ne_zero.mpr (by simpa using hc)
    · rw [if_pos rfl]
      omega
  exact bloomWF_mk _ _ hn

theorem bloom_insert_wf (f : BloomFilter) (key : List Nat) (h : BloomWF f) :
    BloomWF (storage_bloom_insert f key) := by
  obtain ⟨h1, h2, h3⟩ := h
  exact ⟨h1, by simpa [storage_bloom_insert, bloom_fold_length] using h2,
    bloom_fold_bounds _ _ _ h3⟩

theorem bloomInsertList_wf (keys : List (List Nat)) : ∀ f : BloomFilter, BloomWF f →
    BloomWF (bloomInsertList f keys) := by
  induction keys with
  | nil => intro f h; exact h
  | cons k keys ih =>
      intro f h
      exact ih _ (bloom_insert_wf f k h)

theorem bloomInsertList_params (keys : List (List Nat)) : ∀ f : BloomFilter,
    (bloomInsertList f keys).num_bits = f.num_bits ∧
    (bloomInsertList f keys).num_hashes = f.num_hashes := by
  induction keys with
  | nil => intro f; exact ⟨rfl, rfl⟩
  | cons k keys ih =>
      intro f
      exact ih (storage_bloom_insert f k)

theorem bloomInsertList_preserves_bit (keys : List (List Nat)) : ∀ (f : BloomFilter) (j : Nat),
    BloomWF f → bloom_get_bit f.bits j = true →
    bloom_get_bit (bloomInsertList f keys).bits j = true := by
  induction keys with
  | nil => intro f j _ h; exact h
  | cons k keys ih =>
      intro f j hwf h
      exact ih _ j (bloom_insert_wf f k hwf)
        (bloom_fold_preserves _ _ _ _ hwf.2.2 h)

/-- C10: for every key inserted into a bloom filter, every subsequent
might_contain for that key returns true, regardless of the keys inserted
before or after — the k hash bits are deterministic functions of the key,
insert only sets bits, and bits are never cleared. -/
theorem bloom_no_false_negatives (nb nh : Nat) (pre post : List (List Nat)) (key : List Nat) :
    storage_bloom_might_contain
      (bloomInsertList
        (storage_bloom_insert (bloomInsertList (storage_create_bloom nb nh) pre) key)
        post) key = true := by
  have hwf1 : BloomWF (bloomInsertList (storage_create_bloom nb nh) pre) :=
    bloomInsertList_wf pre _ (bloom_create_wf nb nh)
  set f1 := bloomInsertList (storage_create_bloom nb nh) pre with hf1
  have hwf2 : BloomWF (storage_bloom_insert f1 key) := bloom_insert_wf f1 key hwf1
  have hbits : ∀ i ∈ List.range f1.num_hashes,
      bloom_get_bit (storage_bloom_insert f1 key).bits (bloomHash key i f1.num_bits) = true := by
    apply bloom_fold_sets (fun i => bloomHash key i f1.num_bits) (List.range f1.num_hashes)
      f1.bits hwf1.2.2
    intro i _
    have hlt : bloomHash key i f1.num_bits < f1.num_bits := Nat.mod_lt _ hwf1.1
    rw [hwf1.2.1]
    omega
  have hp := bloomInsertList_params post (storage_bloom_insert f1 key)
  unfold storage_bloom_might_contain
  rw [List.all_eq_true]
  intro i hi
  have hnb : (bloomInsertList (storage_bloom_insert f1 key) post).num_bits = f1.num_bits := hp.1
  have hnh : (bloomInsertList (storage_bloom_insert f1 key) post).num_hashes = f1.num_hashes := hp.2
  rw [hnb]
  rw [hnh] at hi
  exact bloomInsertList_preserves_bit post (storage_bloom_insert f1 key) _ hwf2
    (hbits i hi)

/-! ## C6 — buffer pool invariants -/

theorem frameGetD_set_self (l : List Frame) (i : Nat) (x d : Frame) (h : i < l.length) :
    (l.set i x).getD i d = x := by
  simp [List.getD_eq_getElem?_getD, List.getElem?_set_self, h]

theorem frameGetD_set_other (l : List Frame) (i j : Nat) (x d : Frame) (h : i ≠ j) :
    (l.set i x).getD j d = l.getD j d := by
  simp [List.getD_eq_getElem?_getD, List.getElem?_set_ne h]

theorem frameGetD_mem (l : List Frame) (n : Nat) (d : Frame) (h : n < l.length) :
    l.getD n d ∈ l := by
  have h1 : l.getD n d = l[n] := by
    simp [List.getD_eq_getElem?_getD, List.getElem?_eq_getElem h]
  rw [h1]
  exact List.getElem_mem h

theorem findSlotGo_some (id : Nat) : ∀ (fs : List Frame) (i0 i : Nat),
    findSlotGo fs id i0 = some i →
    ∃ k, k < fs.length ∧ i = i0 + k ∧
      (fs.getD k emptyFrame).slot.isSome = true ∧ (fs.getD k emptyFrame).page_id = id := by
  intro fs
  induction fs with
  | nil => intro i0 i h; simp [findSlotGo] at h
  | cons f fs ih =>
      intro i0 i h
      by_cases hc : (f.slot.isSome && f.page_id == id) = true
      · rw [findSlotGo, if_pos hc] at h
        have hi := Option.some.inj h
        refine ⟨0, by simp, by omega, ?_⟩
        simp only [Bool.and_eq_true, beq_iff_eq] at hc
        simpa using hc
      · rw [findSlotGo, if_neg hc] at h
        obtain ⟨k, hk, hik, hrest⟩ := ih (i0 + 1) i h
        exact ⟨k + 1, by simpa using hk, by omega, by simpa using hrest⟩

theorem findSlotGo_none (id : Nat) : ∀ (fs : List Frame) (i0 : Nat),
    findSlotGo fs id i0 = none →
    ∀ k, k < fs.length →
      ¬((fs.getD k emptyFrame).slot.isSome = true ∧ (fs.getD k emptyFrame).page_id = id) := by
  intro fs
  induction fs with
  | nil => intro i0 _ k hk; simp at hk
  | cons f fs ih =>
      intro i0 h k hk
      by_cases hc : (f.slot.isSome && f.page_id == id) = true
      · rw [findSlotGo, if_pos hc] at h
        exact absurd h (by simp)
      · rw [findSlotGo, if_neg hc] at h
        cases k with
        | zero =>
            simp only [Bool.and_eq_true, beq_iff_eq] at hc
            simpa using hc
        | succ k =>
            have := ih (i0 + 1) h k (by simpa using hk)
            simpa using this

theorem findVictimGo_cases : ∀ (fs : List Frame) (i0 minA : Nat) (best : Option Nat) (j : Nat),
    findVictimGo fs i0 minA best = some j →
    best = some j ∨
      ∃ k, k < fs.length ∧ j = i0 + k ∧ frameEligible (fs.getD k emptyFrame) := by
  intro fs
  induction fs with
  | nil => intro i0 minA best j h; exact Or.inl h
  | cons f fs ih =>
      intro i0 minA best j h
      cases hslot : f.slot with
      | none =>
          simp only [findVictimGo, hslot] at h
          have hj := Option.some.inj h
          refine Or.inr ⟨0, by simp, by omega, ?_⟩
          simp [frameEligible, hslot]
      | some p =>
          simp only [findVictimGo, hslot] at h
          by_cases hc : (p.pin_count == 0 && decide (f.last_access < minA)) = true
          · rw [if_pos hc] at h
            rcases ih (i0 + 1) f.last_access (some i0) j h with h1 | ⟨k, hk, hik, he⟩
            · have hj := Option.some.inj h1
              refine Or.inr ⟨0, by simp, by omega, ?_⟩
              simp only [Bool.and_eq_true, beq_iff_eq] at hc
              exact Or.inr ⟨p, by simpa using hslot, hc.1⟩
            · exact Or.inr ⟨k + 1, by simpa using hk, by omega, by simpa using he⟩
          · rw [if_neg hc] at h
            rcases ih (i0 + 1) minA best j h with h1 | ⟨k, hk, hik, he⟩
            · exact Or.inl h1
            · exact Or.inr ⟨k + 1, by simpa using hk, by omega, by simpa using he⟩

theorem findVictimGo_pinned_none : ∀ (fs : List Frame) (i0 minA : Nat),
    (∀ k, k < fs.length → frameValidPinned (fs.getD k emptyFrame) = true) →
    findVictimGo fs i0 minA none = none := by
  intro fs
  induction fs with
  | nil => intro i0 minA _; rfl
  | cons f fs ih =>
      intro i0 minA hp
      have h0 := hp 0 (by simp)
      simp only [List.getD_cons_zero] at h0
      cases hslot : f.slot with
      | none =>
          rw [frameValidPinned, hslot] at h0
          simp at h0
      | some p =>
          simp only [frameValidPinned, hslot] at h0
          have hpin : 1 ≤ p.pin_count := by simpa using h0
          simp only [findVictimGo, hslot]
          rw [if_neg (by simp; omega)]
          exact ih (i0 + 1) minA (fun k hk => by simpa using hp (k + 1) (by simpa using hk))

/-- Claim part (b): a frame returned by buffer_pool_find_victim is invalid
or holds an unpinned page — a pinned frame is never chosen as victim. -/
theorem find_victim_eligible (frames : List Frame) (j : Nat)
    (h : buffer_pool_find_victim frames = some j) :
    j < frames.length ∧ frameEligible (frames.getD j emptyFrame) := by
  rcases findVictimGo_cases frames 0 (2 ^ 64 - 1) none j h with h1 | ⟨k, hk, hjk, he⟩
  · exact absurd h1 (by simp)
  · subst hjk
    have h0 : (0 : Nat) + k = k := Nat.zero_add k
    rw [h0]
    exact ⟨hk, he⟩

/-- Claim part (e'), amended: when every frame is valid and pinned, a get
of a page not resident in the pool returns None — whether the fault takes
the eviction path or not, find_victim has no candidate. -/
theorem get_page_none_when_pinned (bp : BPState) (pm : PMState) (qid : Nat)
    (hpin : ∀ m, m < bp.frames.length → frameValidPinned (bp.frames.getD m emptyFrame) = true)
    (hmiss : buffer_pool_find_slot bp.frames qid = none) :
    (buffer_pool_get_page bp pm qid).1 = none := by
  have hv : buffer_pool_find_victim bp.frames = none :=
    findVictimGo_pinned_none bp.frames 0 (2 ^ 64 - 1) hpin
  by_cases hfull : bp.num_entries ≥ bp.frames.length
  · have he : bpEvict bp pm = none := by
      unfold bpEvict
      rw [if_pos hfull, hv]
    simp [buffer_pool_get_page, hmiss, he]
  · have he : bpEvict bp pm = some (bp, pm) := by
      unfold bpEvict
      rw [if_neg hfull]
    cases hr : page_manager_read pm qid with
    | none => simp [buffer_pool_get_page, hmiss, he, hr]
    | some page => simp [buffer_pool_get_page, hmiss, he, hr, hv]

/-- Claim part (d): when the pool is full and the victim is a valid dirty
frame, the eviction block writes the victim through the page manager and
only then frees its slot. -/
theorem bpEvict_writes_dirty_victim (bp : BPState) (pm : PMState) (v : Nat) (vp : MemPage)
    (hfull : bp.num_entries ≥ bp.frames.length)
    (hv : buffer_pool_find_victim bp.frames = some v)
    (hslot : (bp.frames.getD v emptyFrame).slot = some vp)
    (hdirty : vp.dirty = true) :
    ∀ bp' pm', bpEvict bp pm = some (bp', pm') →
      pm' = (page_manager_write pm vp).1 ∧
      (bp'.frames.getD v emptyFrame).slot = none := by
  intro bp' pm' h
  have hvlen := (find_victim_eligible _ _ hv).1
  unfold bpEvict at h
  rw [if_pos hfull, hv] at h
  simp only [hslot, hdirty, if_true, Option.some.injEq, Prod.mk.injEq] at h
  constructor
  · exact h.2.symm
  · rw [← h.1]
    show ((bp.frames.set v { bp.frames.getD v emptyFrame with slot := none }).getD v
      emptyFrame).slot = none
    rw [frameGetD_set_self bp.frames v
      { bp.frames.getD v emptyFrame with slot := none } emptyFrame hvlen]

theorem framesUnique_set (fs : List Frame) (n : Nat) (x : Frame)
    (hid : x.page_id = (fs.getD n emptyFrame).page_id)
    (hsome : x.slot.isSome = true → (fs.getD n emptyFrame).slot.isSome = true)
    (h : framesUnique fs) : framesUnique (fs.set n x) := by
  intro i j hi hj hij si sj
  rw [List.length_set] at hi hj
  by_cases hin : i = n
  · subst hin
    rw [frameGetD_set_self _ _ _ _ hi] at si ⊢
    rw [frameGetD_set_other _ _ _ _ _ hij] at sj ⊢
    rw [hid]
    exact h i j hi hj hij (hsome si) sj
  · rw [frameGetD_set_other _ _ _ _ _ (fun hh => hin hh.symm)] at si ⊢
    by_cases hjn : j = n
    · subst hjn
      rw [frameGetD_set_self _ _ _ _ hj] at sj ⊢
      rw [hid]
      exact h i j hi hj hij si (hsome sj)
    · rw [frameGetD_set_other _ _ _ _ _ (fun hh => hjn hh.symm)] at sj ⊢
      exact h i j hi hj hij si sj

theorem framesUnique_set_new (fs : List Frame) (n : Nat) (x : Frame)
    (hnew : ∀ m, m < fs.length → (fs.getD m emptyFrame).slot.isSome = true →
      (fs.getD m emptyFrame).page_id ≠ x.page_id)
    (h : framesUnique fs) : framesUnique (fs.set n x) := by
  intro i j hi hj hij si sj
  rw [List.length_set] at hi hj
  by_cases hin : i = n
  · subst hin
    rw [frameGetD_set_self _ _ _ _ hi] at si ⊢
    rw [frameGetD_set_other _ _ _ _ _ hij] at sj ⊢
    exact fun heq => hnew j hj sj (heq ▸ rfl)
  · rw [frameGetD_set_other _ _ _ _ _ (fun hh => hin hh.symm)] at si ⊢
    by_cases hjn : j = n
    · subst hjn
      rw [frameGetD_set_self _ _ _ _ hj] at sj ⊢
      exact hnew i hi si
    · rw [frameGetD_set_other _ _ _ _ _ (fun hh => hjn hh.symm)] at sj ⊢
      exact h i j hi hj hij si sj

theorem framesPins_set (fs : List Frame) (n : Nat) (x : Frame) (k : Nat)
    (hx : ∀ p, x.slot = some p → p.pin_count ≤ k)
    (h : framesPins fs k) : framesPins (fs.set n x) k := by
  intro f hf p hp
  rcases List.mem_or_eq_of_mem_set hf with hmem | heq
  · exact h f hmem p hp
  · subst heq
    exact hx p hp

theorem framesPins_mono (fs : List Frame) (k k' : Nat) (hkk : k ≤ k')
    (h : framesPins fs k) : framesPins fs k' :=
  fun f hf p hp => Nat.le_trans (h f hf p hp) hkk

theorem unpin_inv (bp : BPState) (id k : Nat)
    (hu : framesUnique bp.frames) (hp : framesPins bp.frames k) :
    framesUnique (buffer_pool_unpin_page bp id).frames ∧
    framesPins (buffer_pool_unpin_page bp id).frames k := by
  cases hfs : buffer_pool_find_slot bp.frames id with
  | none =>
      simp only [buffer_pool_unpin_page, hfs]
      exact ⟨hu, hp⟩
  | some i =>
      obtain ⟨kk, hkk, hik, hsome, hid⟩ := findSlotGo_some id bp.frames 0 i hfs
      have hilen : i < bp.frames.length := by omega
      cases hslot : (bp.frames.getD i emptyFrame).slot with
      | none =>
          simp only [buffer_pool_unpin_page, hfs, hslot]
          exact ⟨hu, hp⟩
      | some p =>
          have hpbound : p.pin_count ≤ k := hp _ (frameGetD_mem _ _ _ hilen) p hslot
          by_cases hpin : p.pin_count > 0
          · simp only [buffer_pool_unpin_page, hfs, hslot, if_pos hpin]
            constructor
            · exact framesUnique_set _ _ _ rfl (fun _ => by rw [hslot]; rfl) hu
            · refine framesPins_set _ _ _ _ ?_ hp
              intro q hq
              have h1 := Option.some.inj hq
              rw [← h1]
              show p.pin_count - 1 ≤ k
              omega
          · simp only [buffer_pool_unpin_page, hfs, hslot, if_neg hpin]
            exact ⟨hu, hp⟩

theorem flush_inv (bp : BPState) (pm : PMState) (id k : Nat)
    (hu : framesUnique bp.frames) (hp : framesPins bp.frames k) :
    framesUnique (buffer_pool_flush_page bp pm id).1.frames ∧
    framesPins (buffer_pool_flush_page bp pm id).1.frames k := by
  cases hfs : buffer_pool_find_slot bp.frames id with
  | none =>
      simp only [buffer_pool_flush_page, hfs]
      exact ⟨hu, hp⟩
  | some i =>
      obtain ⟨kk, hkk, hik, hsome, hid⟩ := findSlotGo_some id bp.frames 0 i hfs
      have hilen : i < bp.frames.length := by omega
      cases hslot : (bp.frames.getD i emptyFrame).slot with
      | none =>
          simp only [buffer_pool_flush_page, hfs, hslot]
          exact ⟨hu, hp⟩
      | some p =>
          have hpbound : p.pin_count ≤ k := hp _ (frameGetD_mem _ _ _ hilen) p hslot
          simp only [buffer_pool_flush_page, hfs, hslot, page_manager_write]
          constructor
          · exact framesUnique_set _ _ _ rfl (fun _ => by rw [hslot]; rfl) hu
          · refine framesPins_set _ _ _ _ ?_ hp
            intro q hq
            have h1 := Option.some.inj hq
            rw [← h1]
            show p.pin_count ≤ k
            exact hpbound

theorem bpEvict_inv (bp : BPState) (pm : PMState) (k qid : Nat)
    (hu : framesUnique bp.frames) (hp : framesPins bp.frames k)
    (hnoid : ∀ m, m < bp.frames.length →
      ¬((bp.frames.getD m emptyFrame).slot.isSome = true ∧
        (bp.frames.getD m emptyFrame).page_id = qid)) :
    ∀ bp1 pm1, bpEvict bp pm = some (bp1, pm1) →
      framesUnique bp1.frames ∧ framesPins bp1.frames k ∧
      ∀ m, m < bp1.frames.length →
        ¬((bp1.frames.getD m emptyFrame).slot.isSome = true ∧
          (bp1.frames.getD m emptyFrame).page_id = qid) := by
  intro bp1 pm1 h
  unfold bpEvict at h
  by_cases hfull : bp.num_entries ≥ bp.frames.length
  · rw [if_pos hfull] at h
    cases hv : buffer_pool_find_victim bp.frames with
    | none => rw [hv] at h; simp at h
    | some v =>
        rw [hv] at h
        simp only [Option.some.injEq, Prod.mk.injEq] at h
        have hbp1 : { bp with
            frames := bp.frames.set v { bp.frames.getD v emptyFrame with slot := none }
            num_entries := bp.num_entries - 1 } = bp1 := h.1
        rw [← hbp1]
        refine ⟨?_, ?_, ?_⟩
        · exact framesUnique_set _ _ _ rfl (fun hh => by simp at hh) hu
        · exact framesPins_set _ _ _ _ (fun q hq => by simp at hq) hp
        · intro m hm
          rw [List.length_set] at hm
          by_cases hmv : m = v
          · subst hmv
            rw [frameGetD_set_self _ _ _ _ hm]
            simp
          · rw [frameGetD_set_other _ _ _ _ _ (fun hh => hmv hh.symm)]
            exact hnoid m hm
  · rw [if_neg hfull] at h
    simp only [Option.some.injEq, Prod.mk.injEq] at h
    rw [← h.1]
    exact ⟨hu, hp, hnoid⟩

theorem get_inv (bp : BPState) (pm : PMState) (qid k : Nat)
    (hu : framesUnique bp.frames) (hp : framesPins bp.frames k) :
    framesUnique (buffer_pool_get_page bp pm qid).2.1.frames ∧
    framesPins (buffer_pool_get_page bp pm qid).2.1.frames (k + 1) := by
  cases hfs : buffer_pool_find_slot bp.frames qid with
  | some i =>
      obtain ⟨kk, hkk, hik, hsome, hid⟩ := findSlotGo_some qid bp.frames 0 i hfs
      have hilen : i < bp.frames.length := by omega
      cases hslot : (bp.frames.getD i emptyFrame).slot with
      | none =>
          simp only [buffer_pool_get_page, hfs, hslot]
          exact ⟨hu, framesPins_mono _ _ _ (Nat.le_succ k) hp⟩
      | some p =>
          have hpbound : p.pin_count ≤ k := hp _ (frameGetD_mem _ _ _ hilen) p hslot
          simp only [buffer_pool_get_page, hfs, hslot]
          constructor
          · exact framesUnique_set _ _ _ rfl (fun _ => by rw [hslot]; rfl) hu
          · refine framesPins_set _ _ _ _ ?_ (framesPins_mono _ _ _ (Nat.le_succ k) hp)
            intro q hq
            have h1 := Option.some.inj hq
            rw [← h1]
            show (p.pin_count + 1) % 2 ^ 16 ≤ k + 1
            have h2 : (p.pin_count + 1) % 2 ^ 16 ≤ p.pin_count + 1 := Nat.mod_le _ _
            omega
  | none =>
      have hnoid := findSlotGo_none qid bp.frames 0 hfs
      cases he : bpEvict bp pm with
      | none =>
          simp only [buffer_pool_get_page, hfs, he]
          exact ⟨hu, framesPins_mono _ _ _ (Nat.le_succ k) hp⟩
      | some s1 =>
          obtain ⟨bp1, pm1⟩ := s1
          obtain ⟨hu1, hp1, hnoid1⟩ := bpEvict_inv bp pm k qid hu hp hnoid bp1 pm1 he
          cases hr : page_manager_read pm1 qid with
          | none =>
              simp only [buffer_pool_get_page, hfs, he, hr]
              exact ⟨hu1, framesPins_mono _ _ _ (Nat.le_succ k) hp1⟩
          | some page =>
              cases hv : buffer_pool_find_victim bp1.frames with
              | none =>
                  simp only [buffer_pool_get_page, hfs, he, hr, hv]
                  exact ⟨hu1, framesPins_mono _ _ _ (Nat.le_succ k) hp1⟩
              | some j =>
                  simp only [buffer_pool_get_page, hfs, he, hr, hv]
                  constructor
                  · refine framesUnique_set_new _ _ _ ?_ hu1
                    intro m hm hsm
                    have hno := hnoid1 m hm
                    intro heq
                    exact hno ⟨hsm, heq⟩
                  · refine framesPins_set _ _ _ _ ?_
                      (framesPins_mono _ _ _ (Nat.le_succ k) hp1)
                    intro q hq
                    have h1 := Option.some.inj hq
                    rw [← h1]
                    show 1 ≤ k + 1
                    omega

theorem bpStep_inv (s : BPState × PMState) (op : BPOp) (k : Nat)
    (hu : framesUnique s.1.frames) (hp : framesPins s.1.frames k) :
    framesUnique (bpStep s op).1.frames ∧ framesPins (bpStep s op).1.frames (k + 1) := by
  obtain ⟨bp, pm⟩ := s
  cases op with
  | get id => exact get_inv bp pm id k hu hp
  | unpin id =>
      obtain ⟨h1, h2⟩ := unpin_inv bp id k hu hp
      exact ⟨h1, framesPins_mono _ _ _ (Nat.le_succ k) h2⟩
  | flushPage id =>
      obtain ⟨h1, h2⟩ := flush_inv bp pm id k hu hp
      exact ⟨h1, framesPins_mono _ _ _ (Nat.le_succ k) h2⟩

theorem runBP_fold_inv (ops : List BPOp) : ∀ (s : BPState × PMState) (k : Nat),
    framesUnique s.1.frames → framesPins s.1.frames k →
    framesUnique (ops.foldl bpStep s).1.frames ∧
    framesPins (ops.foldl bpStep s).1.frames (k + ops.length) := by
  induction ops with
  | nil => intro s k hu hp; exact ⟨hu, by simpa using hp⟩
  | cons op ops ih =>
      intro s k hu hp
      obtain ⟨h1, h2⟩ := bpStep_inv s op k hu hp
      obtain ⟨g1, g2⟩ := ih (bpStep s op) (k + 1) h1 h2
      refine ⟨by simpa using g1, ?_⟩
      have heq : k + 1 + ops.length = k + (op :: ops).length := by
        simp
        omega
      rw [heq] at g2
      simpa using g2

theorem getD_replicate_frame (n : Nat) : ∀ i : Nat,
    (List.replicate n emptyFrame).getD i emptyFrame = emptyFrame := by
  induction n with
  | zero => intro i; cases i <;> rfl
  | succ n ih =>
      intro i
      cases i with
      | zero => rfl
      | succ i =>
          rw [List.replicate, List.getD_cons_succ]
          exact ih i

theorem create_unique (cap : Nat) : framesUnique (buffer_pool_create cap).frames := by
  intro i j hi hj hij si sj
  rw [show (buffer_pool_create cap).frames = List.replicate cap emptyFrame from rfl,
    getD_replicate_frame] at si
  simp [emptyFrame] at si

theorem create_pins (cap k : Nat) : framesPins (buffer_pool_create cap).frames k := by
  intro f hf p hp
  have hfe : f = emptyFrame := List.eq_of_mem_replicate hf
  subst hfe
  simp [emptyFrame] at hp

theorem get_pin_pos (bp : BPState) (pm : PMState) (qid k : Nat)
    (hp : framesPins bp.frames k) (hk : k + 1 < 2 ^ 16) :
    ∀ p bp' pm', buffer_pool_get_page bp pm qid = (some p, bp', pm') → 1 ≤ p.pin_count := by
  intro p bp' pm' h
  cases hfs : buffer_pool_find_slot bp.frames qid with
  | some i =>
      obtain ⟨kk, hkk, hik, hsome, hid⟩ := findSlotGo_some qid bp.frames 0 i hfs
      have hilen : i < bp.frames.length := by omega
      cases hslot : (bp.frames.getD i emptyFrame).slot with
      | none =>
          simp only [buffer_pool_get_page, hfs, hslot] at h
          exact Option.noConfusion (congrArg Prod.fst h)
      | some q =>
          have hqb : q.pin_count ≤ k := hp _ (frameGetD_mem _ _ _ hilen) q hslot
          simp only [buffer_pool_get_page, hfs, hslot, Prod.mk.injEq,
            Option.some.injEq] at h
          rw [← h.1]
          show 1 ≤ (q.pin_count + 1) % 2 ^ 16
          rw [Nat.mod_eq_of_lt (by omega)]
          omega
  | none =>
      cases he : bpEvict bp pm with
      | none =>
          simp only [buffer_pool_get_page, hfs, he] at h
          exact Option.noConfusion (congrArg Prod.fst h)
      | some s1 =>
          obtain ⟨bp1, pm1⟩ := s1
          cases hr : page_manager_read pm1 qid with
          | none =>
              simp only [buffer_pool_get_page, hfs, he, hr] at h
              exact Option.noConfusion (congrArg Prod.fst h)
          | some page =>
              cases hv : buffer_pool_find_victim bp1.frames with
              | none =>
                  simp only [buffer_pool_get_page, hfs, he, hr, hv] at h
                  exact Option.noConfusion (congrArg Prod.fst h)
              | some j =>
                  simp only [buffer_pool_get_page, hfs, he, hr, hv, Prod.mk.injEq,
                    Option.some.injEq] at h
                  rw [← h.1]

/-- C6 counterexample: after get(0) on a capacity-1 pool the single frame
is valid and pinned, yet a second get of the resident page 0 returns the
page (the hit path never consults find_victim), so the claim's "when
every frame is valid and pinned, get returns None" is false as stated. -/
theorem bp_pinned_pool_hit_succeeds :
    (∀ m, m < bpPinnedDemo.frames.length →
      frameValidPinned (bpPinnedDemo.frames.getD m emptyFrame) = true) ∧
    (buffer_pool_get_page bpPinnedDemo (runBP 1 pmDemo [.get 0]).2 0).1.isSome = true := by
  exact ⟨by decide, by decide⟩

/-- C6 amended: (b) a frame chosen by buffer_pool_find_victim is invalid
or unpinned, so a pinned page is never evicted until unpinned; (d) when
the pool is full and the chosen victim is valid and dirty, the eviction
block writes it through the page manager and then invalidates its slot;
(e') when every frame is valid and pinned, a get of a page NOT resident
in the pool returns None (a resident page still hits); (c) every state
reached by a run of pool operations has at most one valid frame per
page_id; (a) a page returned by get from such a state carries
pin_count ≥ 1.  The run is bounded below 65534 operations so that the
uint16 pin counters cannot wrap. -/
theorem buffer_pool_invariants (cap : Nat) (pm0 : PMState) (ops : List BPOp) (id : Nat)
    (hops : ops.length < 65534) :
    (∀ frames j, buffer_pool_find_victim frames = some j →
      frameEligible (frames.getD j emptyFrame)) ∧
    (∀ bp pm v vp bp' pm', bp.num_entries ≥ bp.frames.length →
      buffer_pool_find_victim bp.frames = some v →
      (bp.frames.getD v emptyFrame).slot = some vp → vp.dirty = true →
      bpEvict bp pm = some (bp', pm') →
      pm' = (page_manager_write pm vp).1 ∧ (bp'.frames.getD v emptyFrame).slot = none) ∧
    (∀ bp pm qid,
      (∀ m, m < bp.frames.length → frameValidPinned (bp.frames.getD m emptyFrame) = true) →
      buffer_pool_find_slot bp.frames qid = none →
      (buffer_pool_get_page bp pm qid).1 = none) ∧
    BPUnique (runBP cap pm0 ops).1 ∧
    (∀ p bp' pm',
      buffer_pool_get_page (runBP cap pm0 ops).1 (runBP cap pm0 ops).2 id =
        (some p, bp', pm') →
      1 ≤ p.pin_count) := by
  have hinv := runBP_fold_inv ops (buffer_pool_create cap, pm0) 0
    (create_unique cap) (create_pins cap 0)
  refine ⟨?_, ?_, ?_, ?_, ?_⟩
  · intro frames j h
    exact (find_victim_eligible frames j h).2
  · intro bp pm v vp bp' pm' hfull hv hslot hdirty h
    exact bpEvict_writes_dirty_victim bp pm v vp hfull hv hslot hdirty bp' pm' h
  · intro bp pm qid hpin hmiss
    exact get_page_none_when_pinned bp pm qid hpin hmiss
  · exact hinv.1
  · intro p bp' pm' h
    exact get_pin_pos (runBP cap pm0 ops).1 (runBP cap pm0 ops).2 id (0 + ops.length)
      hinv.2 (by omega) p bp' pm' h

/-- Witness for C6's amended theorem: the fully pinned capacity-1 pool
faults on a get of the non-resident page 1. -/
theorem buffer_pool_invariants_witness :
    (buffer_pool_get_page bpPinnedDemo (runBP 1 pmDemo [.get 0]).2 1).1 = none :=
  (buffer_pool_invariants 1 pmDemo [.get 0] 0 (by decide)).2.2.1 bpPinnedDemo
    (runBP 1 pmDemo [.get 0]).2 1 (by decide) (by decide)

end MinSQL
